import Mathlib

/-!
Verification of the decoration-extraction engine of
`markdown-inline-editor-vscode` (`src/parser.ts`).

The document text is modelled as a `List Char`; positions are integers, as in
JavaScript arithmetic (several handlers subtract from offsets before any bound
check, so intermediate positions can be negative).  The external markdown
parser (remark) is out of scope: the syntax tree it returns is modelled as an
explicit input (`Node`), and the guarantees the engine relies on are collected
in the predicate `nodeWF` below.

Every JS loop is embedded as a structurally recursive function with an
explicit fuel argument; each call site passes fuel equal to the exact maximal
number of loop iterations (`(bound - pos).toNat` for a loop running `pos`
up to `bound`), so the fueled function computes the same value as the loop.
-/

namespace MDIE

/-! ### JavaScript string primitives -/

/-- JS `text[i]`: `none` models `undefined` (negative or out-of-range index). -/
def charAtI (t : List Char) (i : Int) : Option Char :=
  if 0 ≤ i then t.get? i.toNat else none

/-- JS whitespace (`\s` class and `trim`), restricted to the ASCII range used
by this development. -/
def isJsWs (c : Char) : Bool :=
  c = ' ' || c = '\t' || c = '\n' || c = '\r' || c = '\x0b' || c = '\x0c'

/-- The characters of `t` with index in `[lo, hi)`. -/
def natSlice (t : List Char) (lo hi : Nat) : List Char :=
  (t.take hi).drop lo

/-- JS `String.prototype.substring(a, b)`: clamps both arguments into
`[0, length]` and swaps them when out of order. -/
def jsSubstring (t : List Char) (a b : Int) : List Char :=
  let a2 := (max 0 (min a (t.length : Int))).toNat
  let b2 := (max 0 (min b (t.length : Int))).toNat
  natSlice t (min a2 b2) (max a2 b2)

/-- JS `trim()` (ASCII whitespace). -/
def jsTrim (t : List Char) : List Char :=
  ((t.dropWhile isJsWs).reverse.dropWhile isJsWs).reverse

/-- The JS loop `while (pos < bound && p(text[pos])) pos++`, with explicit
fuel.  With fuel `(bound - pos).toNat` it equals the loop. -/
def scanWhileI (p : Option Char → Bool) (t : List Char) (bound : Int) :
    Nat → Int → Int
  | 0, pos => pos
  | fuel + 1, pos =>
    if pos < bound ∧ p (charAtI t pos) then scanWhileI p t bound fuel (pos + 1)
    else pos

/-! ### Decoration ranges (`DecorationRange` in `src/parser.ts`) -/

inductive DecType
  | hide | bold | italic | boldItalic | strikethrough | code | codeBlock
  | blockquote | heading | heading1 | heading2 | heading3 | heading4
  | heading5 | heading6 | link | image | horizontalRule | highlight
deriving DecidableEq, Repr

structure DecorationRange where
  startPos : Int
  endPos : Int
  type : DecType
  level : Option Nat
deriving DecidableEq, Repr

/-- A decoration range without the optional heading level. -/
def mkR (st en : Int) (ty : DecType) : DecorationRange := ⟨st, en, ty, none⟩

/-! ### The syntax tree (input from the external remark parser)

`position` is `none` when the node has no position object; each offset is
itself optional, modelling `undefined`/`null` offsets.  `depth` is only
meaningful on heading nodes.  `Node`/`NodeList` are a mutual pair (rather
than a nested `List Node`) so that all recursion over trees is structural. -/

inductive NType
  | root | paragraph | textNode | heading | thematicBreak | code | blockquote
  | inlineCode | strong | emphasis | del | link | image | linkReference
  | imageReference
deriving DecidableEq, Repr

mutual
inductive Node where
  | mk : NType → Nat → Option (Option Nat × Option Nat) → NodeList → Node
inductive NodeList where
  | nil : NodeList
  | cons : Node → NodeList → NodeList
end

def Node.type : Node → NType
  | .mk ty _ _ _ => ty

def Node.depth : Node → Nat
  | .mk _ d _ _ => d

def Node.position : Node → Option (Option Nat × Option Nat)
  | .mk _ _ p _ => p

def Node.children : Node → NodeList
  | .mk _ _ _ c => c

def NodeList.toList : NodeList → List Node
  | .nil => []
  | .cons c rest => c :: rest.toList

/-- `BaseNodeHandler.hasValidPosition`, returning the resolved offsets:
the position object exists and both offsets are neither undefined nor null. -/
def validPos (n : Node) : Option (Nat × Nat) :=
  match n.position with
  | some (some a, some b) => some (a, b)
  | _ => none

def hasValidPosition (n : Node) : Bool := (validPos n).isSome

/-! ### HeadingHandler -/

structure MarkerMatch where
  lws : Nat
  hashes : Nat
  ws : Nat
deriving Repr

/-- The regex `HEADING_MARKER_PATTERN = /^(\s*)(#{1,6})(\s+)/`.  All groups
are greedy; backtracking cannot rescue a failed match because shortening a
group leaves the next character one that the following group also rejects. -/
def headingMarkerMatch (t : List Char) : Option MarkerMatch :=
  let lws := (t.takeWhile isJsWs).length
  let hashes := ((t.drop lws).takeWhile (· = '#')).length
  if 1 ≤ hashes ∧ hashes ≤ 6 then
    let ws := ((t.drop (lws + hashes)).takeWhile isJsWs).length
    if 1 ≤ ws then some ⟨lws, hashes, ws⟩ else none
  else none

/-- `HeadingHandler.getHeadingType`. -/
def headingTypeOf (depth : Nat) : DecType :=
  match depth with
  | 1 => .heading1
  | 2 => .heading2
  | 3 => .heading3
  | 4 => .heading4
  | 5 => .heading5
  | 6 => .heading6
  | _ => .heading

/-- `HeadingHandler.isHeadingEmpty`: the trimmed node text matches
`/^\s*#{1,6}\s*$/`, which on trimmed text means 1–6 `#` and nothing else. -/
def isHeadingEmpty (text : List Char) (s e : Int) : Bool :=
  let ht := jsTrim (jsSubstring text s e)
  decide (1 ≤ ht.length ∧ ht.length ≤ 6) && ht.all (· = '#')

/-- `HeadingHandler.isEmptyContent`. -/
def isEmptyContent (text : List Char) (contentStart e : Int) : Bool :=
  if e ≤ contentStart then true
  else decide ((jsTrim (jsSubstring text contentStart e)).length = 0)

/-- `HeadingHandler.extractDecorations` after the position guard. -/
def headingExtract (depth : Nat) (text : List Char) (s e : Int) :
    List DecorationRange :=
  let headingText := jsSubstring text s e
  match headingMarkerMatch headingText with
  | none =>
    -- no marker match: empty headings get nothing, others the fallback hide
    if isHeadingEmpty text s e then []
    else [mkR s e .hide]
  | some m =>
    let markerStart := s + (m.lws : Int)
    let markerEnd := markerStart + (m.hashes : Int) + (m.ws : Int)
    let contentStart := markerEnd
    if e ≤ contentStart ∨ isEmptyContent text contentStart e then []
    else
      [mkR markerStart markerEnd .hide,
       ⟨markerEnd, e, headingTypeOf depth, some depth⟩]

/-! ### HorizontalRuleHandler -/

def horizontalRuleExtract (s e : Int) : List DecorationRange :=
  [mkR s e .hide, mkR s e .horizontalRule]

/-! ### CodeBlockHandler -/

/-- The regex `/^(```+)(.*?)(```+)$/s`.  The greedy opening group takes the
maximal leading backtick run; the lazy body makes the closing group the
maximal trailing backtick run.  When the whole text is backticks the two runs
overlap and backtracking settles on a 3-backtick closing group. -/
def fenceMatch (t : List Char) : Option (Nat × Nat) :=
  let L := (t.takeWhile (· = '`')).length
  if L = t.length then
    if 6 ≤ t.length then some (t.length - 3, 3) else none
  else
    let T := (t.reverse.takeWhile (· = '`')).length
    if 3 ≤ L ∧ 3 ≤ T then some (L, T) else none

/-- `CodeBlockHandler.findContentStart`: four successive scans (whitespace,
language identifier, whitespace, newlines) bounded by the closing fence. -/
def findContentStart (text : List Char) (afterFence beforeClosing : Int) : Int :=
  let p1 := scanWhileI (fun c => c == some ' ' || c == some '\t') text
      beforeClosing (beforeClosing - afterFence).toNat afterFence
  let p2 := scanWhileI
      (fun c => !(c == some '\n') && !(c == some '\r') && !(c == some ' ') &&
        !(c == some '\t'))
      text beforeClosing (beforeClosing - p1).toNat p1
  let p3 := scanWhileI (fun c => c == some ' ' || c == some '\t') text
      beforeClosing (beforeClosing - p2).toNat p2
  scanWhileI (fun c => c == some '\n' || c == some '\r') text
      beforeClosing (beforeClosing - p3).toNat p3

/-- `CodeBlockHandler.extractDecorations` after the position guard.  (The
source also computes a `contentEnd`, which no emitted decoration uses.) -/
def codeBlockExtract (text : List Char) (s e : Int) : List DecorationRange :=
  let codeText := jsSubstring text s e
  match fenceMatch codeText with
  | none => [mkR s e .code]
  | some (openLen, closeLen) =>
    -- the source re-checks that both fence groups are non-empty strings
    if openLen = 0 ∨ closeLen = 0 then [mkR s e .code]
    else
      let closingFenceStart := e - (closeLen : Int)
      let openingFenceEnd := s + (openLen : Int)
      let contentStart := findContentStart text openingFenceEnd closingFenceStart
      [mkR s contentStart .hide,
       mkR closingFenceStart e .hide,
       mkR s e .codeBlock]

/-! ### BlockquoteHandler -/

/-- The regex `BLOCKQUOTE_MARKER_PATTERN = /^(\s*)(>+)(\s*)/`, returning the
lengths of the three groups. -/
def blockquoteMarkerMatch (t : List Char) : Option (Nat × Nat × Nat) :=
  let lws := (t.takeWhile isJsWs).length
  let m := ((t.drop lws).takeWhile (· = '>')).length
  if 1 ≤ m then some (lws, m, ((t.drop (lws + m)).takeWhile isJsWs).length)
  else none

/-- The backwards walk to the start of the line containing `pos`. -/
def findLineStart (text : List Char) : Nat → Int → Int
  | 0, pos => pos
  | fuel + 1, pos =>
    if 0 < pos ∧ ¬ charAtI text (pos - 1) = some '\n' ∧
        ¬ charAtI text (pos - 1) = some '\r' then
      findLineStart text fuel (pos - 1)
    else pos

/-- The line-by-line marker-hiding loop of `BlockquoteHandler`. -/
def blockquoteLines (text : List Char) (e : Int) :
    Nat → Int → List DecorationRange
  | 0, _ => []
  | fuel + 1, pos =>
    if pos < e then
      let lineStart := pos
      let lineEnd := scanWhileI (fun c => !(c == some '\n') && !(c == some '\r'))
          text e (e - pos).toNat pos
      let lineText := jsSubstring text lineStart lineEnd
      let markerDecs :=
        match blockquoteMarkerMatch lineText with
        | some (lws, m, trail) =>
          let markerStart := lineStart + (lws : Int)
          let markerEnd := markerStart + (m : Int) + (trail : Int)
          if markerStart < markerEnd then [mkR markerStart markerEnd .hide]
          else []
        | none => []
      let pos2 := if lineEnd < e ∧ charAtI text lineEnd = some '\r' then lineEnd + 1
                  else lineEnd
      let pos3 := if pos2 < e ∧ charAtI text pos2 = some '\n' then pos2 + 1
                  else pos2
      markerDecs ++ blockquoteLines text e fuel pos3
    else []

/-- `BlockquoteHandler.extractDecorations` after the position guard. -/
def blockquoteExtract (text : List Char) (s e : Int) : List DecorationRange :=
  let actualStart := findLineStart text s.toNat s
  blockquoteLines text e (e - actualStart).toNat actualStart ++
    [mkR actualStart e .blockquote]

/-! ### InlineCodeHandler -/

/-- `InlineCodeHandler.extractDecorations` after the position guard
(`BACKTICK_LENGTH = 1`); an empty interior produces the 1-length placeholder
range. -/
def inlineCodeExtract (s e : Int) : List DecorationRange :=
  let contentStart := s + 1
  let contentEnd := e - 1
  [mkR s (s + 1) .hide, mkR (e - 1) e .hide,
   if contentEnd ≤ contentStart then mkR contentStart (contentStart + 1) .code
   else mkR contentStart contentEnd .code]

/-! ### StrongHandler and EmphasisHandler -/

/-- Whether `/^(D)(.+?)(D)$/s` matches `t`, where the delimiter group `D` is
`k` copies of `d`.  Both delimiter groups have fixed length `k`, so a match
carries no further information. -/
def delimMatch (t : List Char) (k : Nat) (d : Char) : Bool :=
  decide (2 * k + 1 ≤ t.length) && decide (t.take k = List.replicate k d) &&
    decide (t.drop (t.length - k) = List.replicate k d)

def hasEmphasisChild : NodeList → Bool
  | .nil => false
  | .cons c rest => decide (c.type = NType.emphasis) || hasEmphasisChild rest

/-- `StrongHandler.processChildrenForBoldItalic`. -/
def processChildrenForBoldItalic (text : List Char) :
    NodeList → List DecorationRange
  | .nil => []
  | .cons child rest =>
    (match validPos child with
     | some (cs0, ce0) =>
       let cs : Int := (cs0 : Int)
       let ce : Int := (ce0 : Int)
       if child.type = NType.emphasis then
         let emphasisText := jsSubstring text cs ce
         let delimiterLength : Int :=
           if delimMatch emphasisText 1 '*' then 1
           else if delimMatch emphasisText 1 '_' then 1
           else 1
         [mkR cs (cs + delimiterLength) .hide,
          mkR (ce - delimiterLength) ce .hide,
          mkR (cs + delimiterLength) (ce - delimiterLength) .boldItalic]
       else [mkR cs ce .bold]
     | none => []) ++ processChildrenForBoldItalic text rest

/-- `StrongHandler.extractDecorations` after the position guard: the
bold-italic branch when some direct child is an emphasis node, the plain-bold
branch otherwise.  Each regex delimiter group has a fixed length, so the
delimiter-length computations are constant whichever pattern matches. -/
def strongExtract (text : List Char) (children : NodeList) (s e : Int) :
    List DecorationRange :=
  if hasEmphasisChild children then
    let nodeText := jsSubstring text s e
    let outerDelimiterLength : Int :=
      if delimMatch nodeText 3 '*' then 3
      else if delimMatch nodeText 3 '_' then 3
      else 3
    [mkR s (s + outerDelimiterLength) .hide,
     mkR (e - outerDelimiterLength) e .hide] ++
      processChildrenForBoldItalic text children
  else
    let nodeText := jsSubstring text s e
    let delimiterLength : Int :=
      if delimMatch nodeText 2 '*' then 2
      else if delimMatch nodeText 2 '_' then 2
      else 2
    [mkR s (s + delimiterLength) .hide,
     mkR (e - delimiterLength) e .hide,
     mkR (s + delimiterLength) (e - delimiterLength) .bold]

/-- `EmphasisHandler.extractDecorations` after the position guard: skip when
tightly wrapped by an extra `**`/`__` pair (bold-italic belongs to the strong
handler), otherwise hide the single delimiters and emit `italic`. -/
def emphasisExtract (text : List Char) (s e : Int) : List DecorationRange :=
  let beforeText := jsSubstring text (max 0 (s - 2)) s
  let afterText := jsSubstring text e (min (text.length : Int) (e + 2))
  if beforeText = ['*', '*'] ∧ afterText = ['*', '*'] then []
  else if beforeText = ['_', '_'] ∧ afterText = ['_', '_'] then []
  else
    let nodeText := jsSubstring text s e
    let delimiterLength : Int :=
      if delimMatch nodeText 1 '*' then 1
      else if delimMatch nodeText 1 '_' then 1
      else 1
    [mkR s (s + delimiterLength) .hide,
     mkR (e - delimiterLength) e .hide,
     mkR (s + delimiterLength) (e - delimiterLength) .italic]

/-! ### DeleteHandler -/

def deleteExtract (s e : Int) : List DecorationRange :=
  let contentStart := s + 2
  let contentEnd := e - 2
  if contentEnd ≤ contentStart then []
  else
    [mkR s (s + 2) .hide, mkR (e - 2) e .hide,
     mkR contentStart contentEnd .strikethrough]

/-! ### LinkHandler, ImageHandler and the reference handlers -/

/-- The JS loop that advances past spaces and CR/LF looking for `target`,
returning `none` when any other character intervenes (the handler then emits
nothing: a non-standard or reference form). -/
def findAfterWs (target : Char) (text : List Char) (bound : Int) :
    Nat → Int → Option Int
  | 0, pos => some pos
  | fuel + 1, pos =>
    if pos < bound ∧ ¬ charAtI text pos = some target then
      if ¬ charAtI text pos = some ' ' ∧ ¬ charAtI text pos = some '\n' ∧
          ¬ charAtI text pos = some '\r' then none
      else findAfterWs target text bound fuel (pos + 1)
    else some pos

/-- The depth-counted closing-parenthesis scan of the link/image handlers. -/
def findParenEnd (text : List Char) (bound : Int) :
    Nat → Int → Int → Int
  | 0, pos, _ => pos
  | fuel + 1, pos, depth =>
    if pos < bound ∧ 0 < depth then
      let depth2 : Int :=
        if charAtI text pos = some '(' then depth + 1
        else if charAtI text pos = some ')' then depth - 1
        else depth
      findParenEnd text bound fuel (pos + 1) depth2
    else pos

/-- The parenthesis nesting depth after scanning the `k` positions
`[a, a + k)` starting from depth `d` (the counting performed by
`findParenEnd`); used to state that a span never balances. -/
def parenDepthFrom (text : List Char) : Int → Nat → Int → Int
  | d, 0, _ => d
  | d, k + 1, a =>
    let d2 : Int :=
      if charAtI text a = some '(' then d + 1
      else if charAtI text a = some ')' then d - 1
      else d
    parenDepthFrom text d2 k (a + 1)

/-- `LinkHandler.extractDecorations` after the position guard: the two
auto-link cases, then the standard inline form. -/
def linkExtract (text : List Char) (s e : Int) : List DecorationRange :=
  let beforeChar : Option Char := if 0 < s then charAtI text (s - 1) else none
  let afterChar : Option Char :=
    if e < (text.length : Int) then charAtI text e else none
  let nodeStartChar : Option Char :=
    if s < (text.length : Int) then charAtI text s else none
  let nodeEndChar : Option Char := if 0 < e then charAtI text (e - 1) else none
  if beforeChar = some '<' ∧ afterChar = some '>' then
    [mkR (s - 1) s .hide, mkR e (e + 1) .hide, mkR s e .link]
  else if nodeStartChar = some '<' ∧ nodeEndChar = some '>' then
    [mkR s (s + 1) .hide, mkR (e - 1) e .hide, mkR (s + 1) (e - 1) .link]
  else
    let linkText := jsSubstring text s e
    if ¬ linkText.head? = some '[' then []
    else
      let bracketStart := s
      let bracketEnd := scanWhileI (fun c => !(c == some ']')) text e
          (e - (bracketStart + 1)).toNat (bracketStart + 1)
      if e ≤ bracketEnd then []
      else
        match findAfterWs '(' text e (e - (bracketEnd + 1)).toNat
            (bracketEnd + 1) with
        | none => []
        | some parenStart =>
          if e ≤ parenStart then []
          else
            let parenEnd := findParenEnd text e
                (e - (parenStart + 1)).toNat (parenStart + 1) 1
            if bracketStart < bracketEnd ∧ parenStart < parenEnd then
              [mkR bracketStart (bracketStart + 1) .hide,
               mkR bracketEnd (bracketEnd + 1) .hide,
               mkR parenStart parenEnd .hide] ++
                (if bracketStart + 1 < bracketEnd then
                  [mkR (bracketStart + 1) bracketEnd .link]
                 else [])
            else []

/-- `ImageHandler.extractDecorations` after the position guard. -/
def imageExtract (text : List Char) (s e : Int) : List DecorationRange :=
  let imageText := jsSubstring text s e
  if ¬ imageText.head? = some '!' then []
  else
    let exclamationStart := s
    let bracketStart := s + 1
    if e ≤ bracketStart ∨ ¬ charAtI text bracketStart = some '[' then []
    else
      let bracketEnd := scanWhileI (fun c => !(c == some ']')) text e
          (e - (bracketStart + 1)).toNat (bracketStart + 1)
      if e ≤ bracketEnd then []
      else
        match findAfterWs '(' text e (e - (bracketEnd + 1)).toNat
            (bracketEnd + 1) with
        | none => []
        | some parenStart =>
          if e ≤ parenStart then []
          else
            let parenEnd := findParenEnd text e
                (e - (parenStart + 1)).toNat (parenStart + 1) 1
            if exclamationStart < bracketStart ∧ bracketStart < bracketEnd ∧
                parenStart < parenEnd then
              [mkR exclamationStart (exclamationStart + 1) .hide,
               mkR bracketStart (bracketStart + 1) .hide,
               mkR bracketEnd (bracketEnd + 1) .hide,
               mkR parenStart parenEnd .hide] ++
                (if bracketStart + 1 < bracketEnd then
                  [mkR (bracketStart + 1) bracketEnd .image]
                 else [])
            else []

/-- `LinkReferenceHandler.extractDecorations` after the position guard. -/
def linkReferenceExtract (text : List Char) (s e : Int) :
    List DecorationRange :=
  let linkText := jsSubstring text s e
  if ¬ linkText.head? = some '[' then []
  else
    let bracketStart := s
    let bracketEnd := scanWhileI (fun c => !(c == some ']')) text e
        (e - (bracketStart + 1)).toNat (bracketStart + 1)
    if e ≤ bracketEnd then []
    else
      match findAfterWs '[' text e (e - (bracketEnd + 1)).toNat
          (bracketEnd + 1) with
      | none => []
      | some refBracketStart =>
        if e ≤ refBracketStart then []
        else
          let refBracketEnd := scanWhileI (fun c => !(c == some ']')) text e
              (e - (refBracketStart + 1)).toNat (refBracketStart + 1)
          if e ≤ refBracketEnd then []
          else
            if bracketStart < bracketEnd ∧ refBracketStart < refBracketEnd then
              [mkR bracketStart (bracketStart + 1) .hide,
               mkR bracketEnd (bracketEnd + 1) .hide,
               mkR refBracketStart (refBracketEnd + 1) .hide] ++
                (if bracketStart + 1 < bracketEnd then
                  [mkR (bracketStart + 1) bracketEnd .link]
                 else [])
            else []

/-- `ImageReferenceHandler.extractDecorations` after the position guard. -/
def imageReferenceExtract (text : List Char) (s e : Int) :
    List DecorationRange :=
  let imageText := jsSubstring text s e
  if ¬ imageText.head? = some '!' then []
  else
    let exclamationStart := s
    let bracketStart := s + 1
    if e ≤ bracketStart ∨ ¬ charAtI text bracketStart = some '[' then []
    else
      let bracketEnd := scanWhileI (fun c => !(c == some ']')) text e
          (e - (bracketStart + 1)).toNat (bracketStart + 1)
      if e ≤ bracketEnd then []
      else
        match findAfterWs '[' text e (e - (bracketEnd + 1)).toNat
            (bracketEnd + 1) with
        | none => []
        | some refBracketStart =>
          if e ≤ refBracketStart then []
          else
            let refBracketEnd := scanWhileI (fun c => !(c == some ']')) text e
                (e - (refBracketStart + 1)).toNat (refBracketStart + 1)
            if e ≤ refBracketEnd then []
            else
              if exclamationStart < bracketStart ∧ bracketStart < bracketEnd ∧
                  refBracketStart < refBracketEnd then
                [mkR exclamationStart (exclamationStart + 1) .hide,
                 mkR bracketStart (bracketStart + 1) .hide,
                 mkR bracketEnd (bracketEnd + 1) .hide,
                 mkR refBracketStart (refBracketEnd + 1) .hide] ++
                  (if bracketStart + 1 < bracketEnd then
                    [mkR (bracketStart + 1) bracketEnd .image]
                   else [])
              else []

/-! ### HighlightHandler (manual scanner) -/

/-- JS `text.indexOf("==", pos)` as an option. -/
def indexOfEqEq (text : List Char) : Nat → Int → Option Int
  | 0, _ => none
  | fuel + 1, pos =>
    if pos < (text.length : Int) then
      if charAtI text pos = some '=' ∧ charAtI text (pos + 1) = some '=' then
        some pos
      else indexOfEqEq text fuel (pos + 1)
    else none

/-- The scanning loop of `HighlightHandler.extractDecorations`. -/
def highlightLoop (text : List Char) : Nat → Int → List DecorationRange
  | 0, _ => []
  | fuel + 1, pos =>
    if pos < (text.length : Int) then
      match indexOfEqEq text ((text.length : Int) - pos).toNat pos with
      | none => []
      | some openIndex =>
        match indexOfEqEq text ((text.length : Int) - (openIndex + 2)).toNat
            (openIndex + 2) with
        | none => []
        | some closeIndex =>
          let contentStart := openIndex + 2
          let contentEnd := closeIndex
          (if contentStart < contentEnd then
            [mkR openIndex (openIndex + 2) .hide,
             mkR closeIndex (closeIndex + 2) .hide,
             mkR contentStart contentEnd .highlight]
           else []) ++ highlightLoop text fuel (closeIndex + 2)
    else []

/-- `HighlightHandler.extractDecorations`. -/
def highlightExtract (text : List Char) : List DecorationRange :=
  highlightLoop text text.length 0

/-- The highlight scanning loop started at cursor `pos` with its canonical
fuel (the number of remaining positions, an upper bound on the remaining
iterations). -/
def highlightRun (text : List Char) (pos : Int) : List DecorationRange :=
  highlightLoop text ((text.length : Int) - pos).toNat pos

/-! ### Handler dispatch (the `handlers` array of `MarkdownParser`) -/

def headingHandler (n : Node) (text : List Char) : List DecorationRange :=
  match validPos n with
  | none => []
  | some (s, e) => headingExtract n.depth text (s : Int) (e : Int)

def horizontalRuleHandler (n : Node) (_text : List Char) :
    List DecorationRange :=
  match validPos n with
  | none => []
  | some (s, e) => horizontalRuleExtract (s : Int) (e : Int)

def codeBlockHandler (n : Node) (text : List Char) : List DecorationRange :=
  match validPos n with
  | none => []
  | some (s, e) => codeBlockExtract text (s : Int) (e : Int)

def blockquoteHandler (n : Node) (text : List Char) : List DecorationRange :=
  match validPos n with
  | none => []
  | some (s, e) => blockquoteExtract text (s : Int) (e : Int)

def inlineCodeHandler (n : Node) (_text : List Char) : List DecorationRange :=
  match validPos n with
  | none => []
  | some (s, e) => inlineCodeExtract (s : Int) (e : Int)

def strongHandler (n : Node) (text : List Char) : List DecorationRange :=
  match validPos n with
  | none => []
  | some (s, e) => strongExtract text n.children (s : Int) (e : Int)

def emphasisHandler (n : Node) (text : List Char) : List DecorationRange :=
  match validPos n with
  | none => []
  | some (s, e) => emphasisExtract text (s : Int) (e : Int)

def deleteHandler (n : Node) (_text : List Char) : List DecorationRange :=
  match validPos n with
  | none => []
  | some (s, e) => deleteExtract (s : Int) (e : Int)

def linkHandler (n : Node) (text : List Char) : List DecorationRange :=
  match validPos n with
  | none => []
  | some (s, e) => linkExtract text (s : Int) (e : Int)

def imageHandler (n : Node) (text : List Char) : List DecorationRange :=
  match validPos n with
  | none => []
  | some (s, e) => imageExtract text (s : Int) (e : Int)

def linkReferenceHandler (n : Node) (text : List Char) :
    List DecorationRange :=
  match validPos n with
  | none => []
  | some (s, e) => linkReferenceExtract text (s : Int) (e : Int)

def imageReferenceHandler (n : Node) (text : List Char) :
    List DecorationRange :=
  match validPos n with
  | none => []
  | some (s, e) => imageReferenceExtract text (s : Int) (e : Int)

inductive HandlerTag
  | heading | strong | emphasis | inlineCode | codeBlock | blockquote
  | horizontalRule | del | link | image | linkReference | imageReference
deriving DecidableEq, Repr

def canHandle (h : HandlerTag) (n : Node) : Bool :=
  match h with
  | .heading => n.type = NType.heading
  | .strong => n.type = NType.strong
  | .emphasis => n.type = NType.emphasis
  | .inlineCode => n.type = NType.inlineCode
  | .codeBlock => n.type = NType.code
  | .blockquote => n.type = NType.blockquote
  | .horizontalRule => n.type = NType.thematicBreak
  | .del => n.type = NType.del
  | .link => n.type = NType.link
  | .image => n.type = NType.image
  | .linkReference => n.type = NType.linkReference
  | .imageReference => n.type = NType.imageReference

/-- The registration order of the `handlers` array in the
`MarkdownParser` constructor. -/
def handlerList : List HandlerTag :=
  [.heading, .strong, .emphasis, .inlineCode, .codeBlock, .blockquote,
   .horizontalRule, .del, .link, .image, .linkReference, .imageReference]

/-- `MarkdownParser.findHandler`: the first registered handler that can
handle the node. -/
def findHandler (n : Node) : Option HandlerTag :=
  handlerList.find? (fun h => canHandle h n)

def handlerExtract (h : HandlerTag) (n : Node) (text : List Char) :
    List DecorationRange :=
  match h with
  | .heading => headingHandler n text
  | .strong => strongHandler n text
  | .emphasis => emphasisHandler n text
  | .inlineCode => inlineCodeHandler n text
  | .codeBlock => codeBlockHandler n text
  | .blockquote => blockquoteHandler n text
  | .horizontalRule => horizontalRuleHandler n text
  | .del => deleteHandler n text
  | .link => linkHandler n text
  | .image => imageHandler n text
  | .linkReference => linkReferenceHandler n text
  | .imageReference => imageReferenceHandler n text

/-! ### DecorationCollector

The collector keys ranges by the string `` `${startPos}-${endPos}-${type}` ``.
Since the decimal representations contain `-` only as a leading sign and no
type name contains `-` or is empty, that key determines the triple
`(startPos, endPos, type)` uniquely, so the collector is modelled directly
on triples. -/

def tripleKey (d : DecorationRange) : Int × Int × DecType :=
  (d.startPos, d.endPos, d.type)

def collectorAdd (acc : List DecorationRange) (d : DecorationRange) :
    List DecorationRange :=
  if acc.any (fun x => tripleKey x = tripleKey d) then acc else acc ++ [d]

def collectorAddAll (acc : List DecorationRange) (ds : List DecorationRange) :
    List DecorationRange :=
  ds.foldl collectorAdd acc

/-! ### The bold-italic claimed-span set and conflict filter

The claimed set keys spans by `` `${contentStart}-${contentEnd}` ``.  Both
numbers are non-negative whenever a span is added (`contentStart` is a valid
offset plus one, and `contentEnd > contentStart`), so the filter's
`split("-")`/`Number` round-trip always recovers exactly the recorded pair
and the set is modelled directly on pairs. -/

def setAdd (l : List (Int × Int)) (x : Int × Int) : List (Int × Int) :=
  if x ∈ l then l else l ++ [x]

/-- The per-child body of the claimed-span tracking in
`MarkdownParser.extractDecorations` (content range of each emphasis child,
delimiters excluded, recorded only when non-degenerate). -/
def claimedFold : List (Int × Int) → NodeList → List (Int × Int)
  | acc, .nil => acc
  | acc, .cons child rest =>
    let acc2 :=
      match validPos child with
      | some (cs, ce) =>
        if child.type = NType.emphasis then
          let contentStart : Int := (cs : Int) + 1
          let contentEnd : Int := (ce : Int) - 1
          if contentStart < contentEnd then setAdd acc (contentStart, contentEnd)
          else acc
        else acc
      | none => acc
    claimedFold acc2 rest

/-- The claimed-span update performed while visiting one node (`children` of
a parsed strong node is always an array, hence always truthy). -/
def claimedStep (claimed : List (Int × Int)) (n : Node) : List (Int × Int) :=
  if n.type = NType.strong then
    if hasEmphasisChild n.children ∧ hasValidPosition n then
      claimedFold claimed n.children
    else claimed
  else claimed

/-- The overlap test of the conflict filter (either endpoint inside the
claimed span, or the span contained in the decoration). -/
def overlapsClaim (d : DecorationRange) (sp : Int × Int) : Bool :=
  (decide (sp.1 ≤ d.startPos) && decide (d.startPos < sp.2)) ||
    (decide (sp.1 < d.endPos) && decide (d.endPos ≤ sp.2)) ||
    (decide (d.startPos ≤ sp.1) && decide (sp.2 ≤ d.endPos))

/-- The filter of `MarkdownParser.extractDecorations`: an `italic` range is
kept only when it overlaps no claimed bold-italic span. -/
def keepAfterConflict (claimed : List (Int × Int)) (d : DecorationRange) :
    Bool :=
  if d.type = DecType.italic then !(claimed.any (overlapsClaim d)) else true

/-! ### The orchestrator (`MarkdownParser.extractDecorations`) -/

mutual
/-- The depth-first preorder node sequence of `unist-util-visit`. -/
def preorder : Node → List Node
  | .mk ty d p children => .mk ty d p children :: preorderList children
def preorderList : NodeList → List Node
  | .nil => []
  | .cons c rest => preorder c ++ preorderList rest
end

/-- One visitor invocation: dispatch to the first matching handler, collect
its ranges (deduplicated) and update the claimed-span set. -/
def visitStep (text : List Char)
    (st : List DecorationRange × List (Int × Int)) (n : Node) :
    List DecorationRange × List (Int × Int) :=
  match findHandler n with
  | some h =>
    (collectorAddAll st.1 (handlerExtract h n text), claimedStep st.2 n)
  | none => st

/-- `MarkdownParser.extractDecorations`, as a function of the parsed tree and
the document text: walk the tree, filter italic ranges against the claimed
set, then append the manual highlight scanner's ranges. -/
def extractDecorations (ast : Node) (text : List Char) :
    List DecorationRange :=
  let visited := (preorder ast).foldl (visitStep text) ([], [])
  let filteredDecorations := visited.1.filter (keepAfterConflict visited.2)
  filteredDecorations ++ highlightExtract text

/-! ### Parser well-formedness

Modelled from the spec: the markdown-to-syntax-tree parser is an external
collaborator ("consumed as a black box that, given document text, returns a
tree of typed nodes with byte-offset position spans", its parsing rules
"assumed correct").  `nodeWF` records the facts about remark's output that
the engine relies on: every resolvable position is a non-degenerate span
inside the text, and delimited inline constructs span at least their own
delimiters (an inline-code node includes its two backticks, a strong node
its four delimiter characters plus content, an emphasis or autolink node its
two delimiters plus content, a thematic break its three marker characters),
with strong/delete nodes starting and ending on their `*`/`_`/`~` delimiter
characters (never `=`) and no heading node consisting of exactly the two
characters `==`. -/

def nodeWF (text : List Char) (n : Node) : Bool :=
  match validPos n with
  | none => true
  | some (s, e) =>
    decide (s < e) && decide (e ≤ text.length) &&
      (match n.type with
       | NType.inlineCode => decide (2 ≤ e - s)
       | NType.emphasis => decide (3 ≤ e - s)
       | NType.link => decide (3 ≤ e - s)
       | NType.thematicBreak => decide (3 ≤ e - s)
       | NType.strong =>
         decide (5 ≤ e - s) && !(text.get? s == some '=') &&
           !(text.get? (e - 1) == some '=')
       | NType.del =>
         !(text.get? s == some '=') && !(text.get? (e - 1) == some '=')
       | NType.heading =>
         !(decide (e - s = 2) && (text.get? s == some '=') &&
           (text.get? (s + 1) == some '='))
       | _ => true)

/-- Every node of the tree satisfies the parser contract `nodeWF`. -/
def treeWF (text : List Char) (ast : Node) : Prop :=
  ∀ n ∈ preorder ast, nodeWF text n = true

/-- The invariant every tree-derived decoration satisfies under `nodeWF`:
its span is non-degenerate and inside the text, its type is never
`highlight`, and no 2-character `hide` covers a `==` occurrence (so it can
never collide with a delimiter hide of the manual highlight scanner). -/
def GoodDec (text : List Char) (d : DecorationRange) : Prop :=
  0 ≤ d.startPos ∧ d.startPos < d.endPos ∧ d.endPos ≤ (text.length : Int) ∧
    d.type ≠ DecType.highlight ∧
    (d.type = DecType.hide → d.endPos = d.startPos + 2 →
      ¬ (charAtI text d.startPos = some '=' ∧
         charAtI text (d.startPos + 1) = some '='))

/-- The shape of every decoration emitted by the manual highlight scanner:
a 2-character delimiter `hide` covering `==`, or a non-degenerate
`highlight` range, both inside the text. -/
def HLDec (text : List Char) (d : DecorationRange) : Prop :=
  (d.type = DecType.hide ∧ 0 ≤ d.startPos ∧ d.endPos = d.startPos + 2 ∧
    d.endPos ≤ (text.length : Int) ∧ charAtI text d.startPos = some '=' ∧
    charAtI text (d.startPos + 1) = some '=') ∨
  (d.type = DecType.highlight ∧ 0 ≤ d.startPos ∧ d.startPos < d.endPos ∧
    d.endPos ≤ (text.length : Int))

/-! ## Basic facts about the string primitives -/

theorem charAtI_eq_some {t : List Char} {i : Int} {c : Char}
    (h : charAtI t i = some c) :
    0 ≤ i ∧ i < (t.length : Int) ∧ t.get? i.toNat = some c := by
  unfold charAtI at h
  split at h
  · rename_i h0
    refine ⟨h0, ?_, h⟩
    have := List.get?_eq_getElem? t i.toNat
    rw [this] at h
    rcases List.getElem?_eq_some.mp h with ⟨hlt, _⟩
    omega
  · exact absurd h (by simp)

theorem charAtI_of_get? {t : List Char} {i : Nat} :
    charAtI t (i : Int) = t.get? i := by
  simp [charAtI, Int.toNat_ofNat]

theorem le_scanWhileI (p : Option Char → Bool) (t : List Char) (bound : Int) :
    ∀ fuel pos, pos ≤ scanWhileI p t bound fuel pos := by
  intro fuel
  induction fuel with
  | zero => intro pos; simp [scanWhileI]
  | succ k ih =>
    intro pos
    simp only [scanWhileI]
    split
    · exact le_trans (by omega) (ih (pos + 1))
    · exact le_refl _

theorem scanWhileI_le_bound (p : Option Char → Bool) (t : List Char)
    (bound : Int) :
    ∀ fuel pos, pos ≤ bound → scanWhileI p t bound fuel pos ≤ bound := by
  intro fuel
  induction fuel with
  | zero => intro pos h; simpa [scanWhileI] using h
  | succ k ih =>
    intro pos h
    simp only [scanWhileI]
    split
    · rename_i hc
      exact ih (pos + 1) (by omega)
    · exact h

theorem findAfterWs_some_le (tg : Char) (t : List Char) (bound : Int) :
    ∀ fuel pos q, findAfterWs tg t bound fuel pos = some q → pos ≤ q := by
  intro fuel
  induction fuel with
  | zero => intro pos q h; simp [findAfterWs] at h; omega
  | succ k ih =>
    intro pos q h
    simp only [findAfterWs] at h
    split at h
    · split at h
      · exact absurd h (by simp)
      · exact le_trans (by omega) (ih (pos + 1) q h)
    · simp at h; omega

theorem findAfterWs_some_le_bound (tg : Char) (t : List Char) (bound : Int) :
    ∀ fuel pos q, pos ≤ bound → findAfterWs tg t bound fuel pos = some q →
      q ≤ bound := by
  intro fuel
  induction fuel with
  | zero => intro pos q hpb h; simp [findAfterWs] at h; omega
  | succ k ih =>
    intro pos q hpb h
    simp only [findAfterWs] at h
    split at h
    · rename_i hc
      split at h
      · exact absurd h (by simp)
      · exact ih (pos + 1) q (by omega) h
    · simp at h; omega

theorem findAfterWs_some_char (tg : Char) (t : List Char) (bound : Int) :
    ∀ fuel pos q, (bound - pos).toNat ≤ fuel →
      findAfterWs tg t bound fuel pos = some q → q < bound →
      charAtI t q = some tg := by
  intro fuel
  induction fuel with
  | zero =>
    intro pos q hf h hq
    simp [findAfterWs] at h
    omega
  | succ k ih =>
    intro pos q hf h hq
    simp only [findAfterWs] at h
    split at h
    · split at h
      · exact absurd h (by simp)
      · exact ih (pos + 1) q (by rename_i hc _; omega) h hq
    · rename_i hc
      have hq2 : q = pos := by simpa using h.symm
      subst hq2
      rcases not_and_or.mp hc with h1 | h2
      · omega
      · simpa using h2

theorem le_findParenEnd (t : List Char) (bound : Int) :
    ∀ fuel pos depth, pos ≤ findParenEnd t bound fuel pos depth := by
  intro fuel
  induction fuel with
  | zero => intro pos depth; simp [findParenEnd]
  | succ k ih =>
    intro pos depth
    simp only [findParenEnd]
    split
    · exact le_trans (by omega) (ih (pos + 1) _)
    · exact le_refl _

theorem findParenEnd_le_bound (t : List Char) (bound : Int) :
    ∀ fuel pos depth, pos ≤ bound →
      findParenEnd t bound fuel pos depth ≤ bound := by
  intro fuel
  induction fuel with
  | zero => intro pos depth h; simpa [findParenEnd] using h
  | succ k ih =>
    intro pos depth h
    simp only [findParenEnd]
    split
    · rename_i hc; exact ih (pos + 1) _ (by omega)
    · exact h

theorem findLineStart_le (t : List Char) :
    ∀ fuel pos, findLineStart t fuel pos ≤ pos := by
  intro fuel
  induction fuel with
  | zero => intro pos; simp [findLineStart]
  | succ k ih =>
    intro pos
    simp only [findLineStart]
    split
    · exact le_trans (ih (pos - 1)) (by omega)
    · exact le_refl _

theorem findLineStart_nonneg (t : List Char) :
    ∀ fuel pos, 0 ≤ pos → 0 ≤ findLineStart t fuel pos := by
  intro fuel
  induction fuel with
  | zero => intro pos h; simpa [findLineStart] using h
  | succ k ih =>
    intro pos h
    simp only [findLineStart]
    split
    · rename_i hc; exact ih (pos - 1) (by omega)
    · exact h

theorem indexOfEqEq_some (t : List Char) :
    ∀ fuel pos i, indexOfEqEq t fuel pos = some i →
      pos ≤ i ∧ charAtI t i = some '=' ∧ charAtI t (i + 1) = some '=' := by
  intro fuel
  induction fuel with
  | zero => intro pos i h; simp [indexOfEqEq] at h
  | succ k ih =>
    intro pos i h
    simp only [indexOfEqEq] at h
    split at h
    · split at h
      · rename_i hc
        have hi : pos = i := Option.some.inj h
        subst hi
        exact ⟨le_refl _, hc.1, hc.2⟩
      · have := ih (pos + 1) i h
        exact ⟨by omega, this.2.1, this.2.2⟩
    · exact absurd h (by simp)

/-- Positions and bounds of a match of `indexOfEqEq`. -/
theorem indexOfEqEq_some_bounds (t : List Char) {fuel : Nat} {pos i : Int}
    (h : indexOfEqEq t fuel pos = some i) :
    pos ≤ i ∧ 0 ≤ i ∧ i + 2 ≤ (t.length : Int) := by
  obtain ⟨h1, h2, h3⟩ := indexOfEqEq_some t fuel pos i h
  obtain ⟨ha, _, _⟩ := charAtI_eq_some h2
  obtain ⟨_, hb, _⟩ := charAtI_eq_some h3
  exact ⟨h1, ha, by omega⟩

/-! ## Facts about slices -/

theorem natSlice_length (t : List Char) (lo hi : Nat) :
    (natSlice t lo hi).length = min hi t.length - lo := by
  simp [natSlice, List.length_drop, List.length_take]

theorem natSlice_get? (t : List Char) (lo hi i : Nat) :
    (natSlice t lo hi).get? i =
      if lo + i < hi then t.get? (lo + i) else none := by
  simp only [natSlice, List.get?_eq_getElem?, List.getElem?_drop,
    List.getElem?_take]

theorem jsSubstring_eq_natSlice {t : List Char} {a b : Int} (h0 : 0 ≤ a)
    (hab : a ≤ b) (hb : b ≤ (t.length : Int)) :
    jsSubstring t a b = natSlice t a.toNat b.toNat := by
  unfold jsSubstring
  rw [min_eq_left hb, min_eq_left (le_trans hab hb), max_eq_right h0,
    max_eq_right (le_trans h0 hab)]
  have h3 : a.toNat ≤ b.toNat := by omega
  show natSlice t (min a.toNat b.toNat) (max a.toNat b.toNat) =
    natSlice t a.toNat b.toNat
  rw [min_eq_left h3, max_eq_right h3]

theorem jsSubstring_length {t : List Char} {a b : Int} (h0 : 0 ≤ a)
    (hab : a ≤ b) (hb : b ≤ (t.length : Int)) :
    ((jsSubstring t a b).length : Int) = b - a := by
  rw [jsSubstring_eq_natSlice h0 hab hb, natSlice_length]
  omega

theorem jsSubstring_get? {t : List Char} {a b : Int} {i : Nat} (h0 : 0 ≤ a)
    (hab : a ≤ b) (hb : b ≤ (t.length : Int)) (hi : (i : Int) < b - a) :
    (jsSubstring t a b).get? i = charAtI t (a + i) := by
  rw [jsSubstring_eq_natSlice h0 hab hb, natSlice_get?,
    if_pos (by omega)]
  have : a + (i : Int) = ((a.toNat + i : Nat) : Int) := by omega
  rw [this, charAtI_of_get?]

/-! ## Facts about `takeWhile` -/

theorem takeWhile_length_le (p : Char → Bool) (l : List Char) :
    (l.takeWhile p).length ≤ l.length :=
  (List.takeWhile_sublist p).length_le

theorem takeWhile_get?_sat (p : Char → Bool) :
    ∀ (l : List Char) (i : Nat), i < (l.takeWhile p).length →
      ∃ c, l.get? i = some c ∧ p c = true := by
  intro l
  induction l with
  | nil => intro i h; simp at h
  | cons a l ih =>
    intro i h
    by_cases hp : p a
    · rw [List.takeWhile_cons_of_pos hp] at h
      cases i with
      | zero => exact ⟨a, by simp, hp⟩
      | succ j =>
        obtain ⟨c, hc, hpc⟩ := ih j (by simpa using h)
        exact ⟨c, by simpa using hc, hpc⟩
    · rw [List.takeWhile_cons_of_neg hp] at h
      simp at h

theorem takeWhile_stop (p : Char → Bool) :
    ∀ (l : List Char) (c : Char), l.get? (l.takeWhile p).length = some c →
      p c = false := by
  intro l
  induction l with
  | nil => intro c h; simp at h
  | cons a l ih =>
    intro c h
    by_cases hp : p a
    · rw [List.takeWhile_cons_of_pos hp] at h
      simp only [List.length_cons] at h
      exact ih c (by simpa using h)
    · rw [List.takeWhile_cons_of_neg hp] at h
      simp only [List.length_nil] at h
      have ha : a = c := by simpa using h
      subst ha
      simpa using hp

/-! ## Specifications of the regex matchers -/

/-- The first position after a maximal `takeWhile` run holds a character
refuting the predicate (when it exists), and the run's elements satisfy it. -/
theorem drop_takeWhile_get?_sat (p : Char → Bool) (t : List Char) (n : Nat)
    (h : 1 ≤ ((t.drop n).takeWhile p).length) :
    ∃ c, t.get? n = some c ∧ p c = true := by
  obtain ⟨c, hc, hpc⟩ := takeWhile_get?_sat p (t.drop n) 0 h
  refine ⟨c, ?_, hpc⟩
  rw [List.get?_eq_getElem?] at hc ⊢
  rwa [List.getElem?_drop, Nat.add_zero] at hc

theorem headingMarkerMatch_spec {t : List Char} {lws hashes ws : Nat}
    (h : headingMarkerMatch t = some ⟨lws, hashes, ws⟩) :
    1 ≤ hashes ∧ hashes ≤ 6 ∧ 1 ≤ ws ∧
      lws + hashes + ws ≤ t.length ∧ t.get? lws = some '#' := by
  simp only [headingMarkerMatch] at h
  split at h
  · rename_i hh
    split at h
    · rename_i hw
      simp only [Option.some.injEq, MarkerMatch.mk.injEq] at h
      obtain ⟨h1, h2, h3⟩ := h
      have e1 : (t.takeWhile isJsWs).length ≤ t.length := takeWhile_length_le _ _
      have e2 := takeWhile_length_le (fun c => decide (c = '#'))
        (t.drop (t.takeWhile isJsWs).length)
      have e3 := takeWhile_length_le isJsWs
        (t.drop ((t.takeWhile isJsWs).length +
          ((t.drop (t.takeWhile isJsWs).length).takeWhile
            (fun c => decide (c = '#'))).length))
      rw [List.length_drop] at e2 e3
      obtain ⟨c, hc, hpc⟩ := drop_takeWhile_get?_sat
        (fun c => decide (c = '#')) t (t.takeWhile isJsWs).length
        (h2 ▸ hh.1)
      have hc7 : c = '#' := of_decide_eq_true hpc
      subst hc7
      refine ⟨h2 ▸ hh.1, h2 ▸ hh.2, h3 ▸ hw, ?_, h1 ▸ hc⟩
      omega
    · exact absurd h (by simp)
  · exact absurd h (by simp)

theorem blockquoteMarkerMatch_spec {t : List Char} {lws m trail : Nat}
    (h : blockquoteMarkerMatch t = some (lws, m, trail)) :
    1 ≤ m ∧ lws + m + trail ≤ t.length ∧ t.get? lws = some '>' := by
  simp only [blockquoteMarkerMatch] at h
  split at h
  · rename_i hm
    simp only [Option.some.injEq, Prod.mk.injEq] at h
    obtain ⟨h1, h2, h3⟩ := h
    have e1 : (t.takeWhile isJsWs).length ≤ t.length := takeWhile_length_le _ _
    have e2 := takeWhile_length_le (fun c => decide (c = '>'))
      (t.drop (t.takeWhile isJsWs).length)
    have e3 := takeWhile_length_le isJsWs
      (t.drop ((t.takeWhile isJsWs).length +
        ((t.drop (t.takeWhile isJsWs).length).takeWhile
          (fun c => decide (c = '>'))).length))
    rw [List.length_drop] at e2 e3
    obtain ⟨c, hc, hpc⟩ := drop_takeWhile_get?_sat
      (fun c => decide (c = '>')) t (t.takeWhile isJsWs).length
      (h2 ▸ hm)
    have hc7 : c = '>' := of_decide_eq_true hpc
    subst hc7
    refine ⟨h2 ▸ hm, ?_, h1 ▸ hc⟩
    omega
  · exact absurd h (by simp)

theorem fenceMatch_spec {t : List Char} {o c : Nat}
    (h : fenceMatch t = some (o, c)) :
    3 ≤ o ∧ 3 ≤ c ∧ o + c ≤ t.length := by
  simp only [fenceMatch] at h
  split at h
  · rename_i hall
    split at h
    · rename_i h6
      simp only [Option.some.injEq, Prod.mk.injEq] at h
      omega
    · exact absurd h (by simp)
  · rename_i hne
    split at h
    · rename_i hLT
      simp only [Option.some.injEq, Prod.mk.injEq] at h
      obtain ⟨h1, h2⟩ := h
      set L := (t.takeWhile (fun c => decide (c = '`'))).length with hLdef
      set T := (t.reverse.takeWhile (fun c => decide (c = '`'))).length with hTdef
      have hLlen : L ≤ t.length := takeWhile_length_le _ _
      have hLlt : L < t.length := lt_of_le_of_ne hLlen hne
      refine ⟨h1 ▸ hLT.1, h2 ▸ hLT.2, ?_⟩
      subst h1; subst h2
      by_contra hgt
      push_neg at hgt
      have hi : t.length - 1 - L < T := by omega
      obtain ⟨ch, hch, hpch⟩ := takeWhile_get?_sat _ t.reverse (t.length - 1 - L) hi
      have hrev : t.reverse.get? (t.length - 1 - L) = t.get? L := by
        rw [List.get?_eq_getElem?, List.get?_eq_getElem?,
          List.getElem?_reverse (by omega)]
        congr 1
        omega
      rw [hrev] at hch
      have hstop := takeWhile_stop (fun c => decide (c = '`')) t ch (hLdef ▸ hch)
      rw [of_decide_eq_true hpch] at hstop
      simp at hstop
    · exact absurd h (by simp)

/-! ## Claim 6: invalid positions disable every handler -/

/-- C6: for every node whose position is missing or whose start or end offset
is undefined or null, every construct handler returns the empty list (and, all
handlers being total Lean functions, never throws). -/
theorem c6_invalid_position_handlers_empty (h : HandlerTag) (n : Node)
    (text : List Char) (hpos : hasValidPosition n = false) :
    handlerExtract h n text = [] := by
  have hv : validPos n = none := by
    unfold hasValidPosition at hpos
    exact Option.not_isSome_iff_eq_none.mp (by simp [hpos])
  cases h <;>
    simp [handlerExtract, headingHandler, strongHandler, emphasisHandler,
      inlineCodeHandler, codeBlockHandler, blockquoteHandler,
      horizontalRuleHandler, deleteHandler, linkHandler, imageHandler,
      linkReferenceHandler, imageReferenceHandler, hv]

theorem c6_witness :
    hasValidPosition (Node.mk NType.heading 1 none NodeList.nil) = false ∧
      handlerExtract HandlerTag.heading
        (Node.mk NType.heading 1 none NodeList.nil) [] = [] :=
  ⟨by decide, c6_invalid_position_handlers_empty HandlerTag.heading
    (Node.mk NType.heading 1 none NodeList.nil) [] (by decide)⟩

/-! ## Facts about whitespace runs (for the heading handler) -/

theorem isJsWs_ne {c d : Char} (hd : isJsWs d = false) (h : isJsWs c = true) :
    c ≠ d := by
  intro he
  subst he
  rw [h] at hd
  exact absurd hd (by simp)

theorem takeWhile_append_all {p : Char → Bool} {l1 l2 : List Char}
    (h1 : ∀ c ∈ l1, p c = true) :
    (l1 ++ l2).takeWhile p = l1 ++ l2.takeWhile p := by
  rw [List.takeWhile_append,
    if_pos (by rw [List.takeWhile_eq_self_iff.mpr h1])]

theorem takeWhile_head_neg {p : Char → Bool} {l : List Char}
    (h : ∀ c, l.head? = some c → p c = false) :
    l.takeWhile p = [] := by
  cases l with
  | nil => rfl
  | cons a l => exact List.takeWhile_cons_of_neg (by simp [h a rfl])

theorem dropWhile_append_all {p : Char → Bool} {l1 l2 : List Char}
    (h1 : ∀ c ∈ l1, p c = true) :
    (l1 ++ l2).dropWhile p = l2.dropWhile p := by
  rw [List.dropWhile_append,
    if_pos (by simp [List.dropWhile_eq_nil_iff.mpr h1])]

theorem dropWhile_head_neg {p : Char → Bool} {l : List Char}
    (h : ∀ c, l.head? = some c → p c = false) :
    l.dropWhile p = l := by
  cases l with
  | nil => rfl
  | cons a l => exact List.dropWhile_cons_of_neg (by simp [h a rfl])

/-- Trimming whitespace from around a run of `#` characters. -/
theorem jsTrim_ws_hashes {ws1 : List Char} {m : Nat}
    (hws1 : ∀ c ∈ ws1, isJsWs c = true) (hm : 1 ≤ m) :
    jsTrim (ws1 ++ List.replicate m '#') = List.replicate m '#' := by
  have hhead : ∀ c, (List.replicate m '#').head? = some c → isJsWs c = false := by
    intro c hc
    cases m with
    | zero => simp at hc
    | succ k =>
      rw [List.replicate_succ] at hc
      simp only [List.head?_cons, Option.some.injEq] at hc
      subst hc
      decide
  unfold jsTrim
  rw [dropWhile_append_all hws1, dropWhile_head_neg hhead,
    List.reverse_replicate, dropWhile_head_neg hhead, List.reverse_replicate]

/-! ## Claim 7: empty headings emit nothing -/

/-- C7: a heading node whose raw text consists of optional whitespace, a
marker of 1–6 `#`, and optional whitespace — i.e. only the marker plus
whitespace (`"# "`), or a matched marker whose trailing content is empty —
produces no decorations at all. -/
theorem c7_empty_heading_no_decorations (n : Node) (text : List Char)
    (s e : Nat) (ws1 ws2 : List Char) (m : Nat)
    (hpos : validPos n = some (s, e)) (hse : s < e) (hlen : e ≤ text.length)
    (hslice : natSlice text s e = ws1 ++ List.replicate m '#' ++ ws2)
    (hm1 : 1 ≤ m) (hm6 : m ≤ 6)
    (hws1 : ∀ c ∈ ws1, isJsWs c = true)
    (hws2 : ∀ c ∈ ws2, isJsWs c = true) :
    headingHandler n text = [] := by
  have hsub : jsSubstring text (s : Int) (e : Int) = natSlice text s e := by
    rw [jsSubstring_eq_natSlice (by omega) (by exact_mod_cast Nat.le_of_lt hse)
      (by exact_mod_cast hlen), Int.toNat_ofNat, Int.toNat_ofNat]
  have hrep : ∀ c ∈ List.replicate m '#', (fun c => decide (c = '#')) c = true := by
    intro c hc
    rw [List.eq_of_mem_replicate hc]
    decide
  have hhashhead : ∀ c, (List.replicate m '#' ++ ws2).head? = some c →
      isJsWs c = false := by
    intro c hc
    cases m with
    | zero => omega
    | succ k =>
      rw [List.replicate_succ] at hc
      simp only [List.cons_append, List.head?_cons, Option.some.injEq] at hc
      subst hc
      decide
  have hws2head : ∀ c, ws2.head? = some c → (fun c => decide (c = '#')) c = false := by
    intro c hc
    have : c ∈ ws2 := by
      cases ws2 with
      | nil => simp at hc
      | cons a l =>
        simp only [List.head?_cons, Option.some.injEq] at hc
        subst hc
        exact List.mem_cons_self _ _
    simpa using isJsWs_ne (d := '#') (by decide) (hws2 c this)
  -- the three groups of the marker regex on the slice
  have htw1 : (ws1 ++ (List.replicate m '#' ++ ws2)).takeWhile isJsWs = ws1 := by
    rw [takeWhile_append_all hws1, takeWhile_head_neg hhashhead,
      List.append_nil]
  have hdrop1 : (ws1 ++ (List.replicate m '#' ++ ws2)).drop ws1.length =
      List.replicate m '#' ++ ws2 := List.drop_left _ _
  have htw2 : ((List.replicate m '#' ++ ws2)).takeWhile
      (fun c => decide (c = '#')) = List.replicate m '#' := by
    rw [takeWhile_append_all hrep, takeWhile_head_neg hws2head,
      List.append_nil]
  have hdrop2 : (ws1 ++ (List.replicate m '#' ++ ws2)).drop
      (ws1.length + m) = ws2 := by
    have : ws1 ++ (List.replicate m '#' ++ ws2) =
        (ws1 ++ List.replicate m '#') ++ ws2 := by rw [List.append_assoc]
    rw [this]
    have hl : ws1.length + m = (ws1 ++ List.replicate m '#').length := by
      simp [List.length_append, List.length_replicate]
    rw [hl]
    exact List.drop_left _ _
  have htw3 : ws2.takeWhile isJsWs = ws2 := List.takeWhile_eq_self_iff.mpr hws2
  rw [List.append_assoc] at hslice
  have hslen : (ws1 ++ (List.replicate m '#' ++ ws2)).length = e - s := by
    rw [← hslice, natSlice_length]
    omega
  simp only [List.length_append, List.length_replicate] at hslen
  cases hw2 : ws2 with
  | nil =>
    -- `\s+` fails: no marker match; the node is an empty heading
    subst hw2
    have hmatch : headingMarkerMatch (ws1 ++ (List.replicate m '#' ++ [])) =
        none := by
      simp only [headingMarkerMatch, htw1, hdrop1, htw2,
        List.length_replicate, hdrop2, htw3]
      rw [if_pos ⟨hm1, hm6⟩, if_neg (by simp)]
    have hempty : isHeadingEmpty text (s : Int) (e : Int) = true := by
      unfold isHeadingEmpty
      rw [hsub, hslice]
      simp only [List.append_nil]
      rw [jsTrim_ws_hashes hws1 hm1]
      simp only [List.length_replicate]
      rw [Bool.and_eq_true]
      refine ⟨decide_eq_true ⟨hm1, hm6⟩, ?_⟩
      rw [List.all_eq_true]
      intro c hc
      rw [List.eq_of_mem_replicate hc]
      decide
    simp only [headingHandler, hpos, headingExtract, hsub, hslice, hmatch,
      hempty]
    simp
  | cons a l =>
    -- marker matched, but the content after it is empty
    subst hw2
    have hmatch : headingMarkerMatch (ws1 ++ (List.replicate m '#' ++ (a :: l))) =
        some ⟨ws1.length, m, (a :: l).length⟩ := by
      simp only [headingMarkerMatch, htw1, hdrop1, htw2,
        List.length_replicate, hdrop2, htw3]
      rw [if_pos ⟨hm1, hm6⟩, if_pos (by simp)]
    have hcond : (e : Int) ≤ (s : Int) + (ws1.length : Int) + (m : Int) +
        ((a :: l).length : Int) := by
      simp only [List.length_cons] at hslen ⊢
      push_cast
      omega
    simp only [headingHandler, hpos, headingExtract, hsub, hslice, hmatch]
    rw [if_pos (Or.inl hcond)]

theorem c7_witness : headingHandler
    (Node.mk NType.heading 1 (some (some 0, some 2)) NodeList.nil)
    ['#', ' ', 'x'] = [] :=
  c7_empty_heading_no_decorations
    (Node.mk NType.heading 1 (some (some 0, some 2)) NodeList.nil)
    ['#', ' ', 'x'] 0 2 [] [' '] 1 (by decide) (by decide) (by decide)
    (by decide) (by decide) (by decide) (by decide) (by decide)

/-! ## Exact characterizations of the scanning loops -/

theorem scanWhileI_eq_of (p : Option Char → Bool) (t : List Char)
    {bound b : Int} (hstop : b = bound ∨ p (charAtI t b) = false) :
    ∀ fuel (a : Int), a ≤ b → b ≤ bound →
      (∀ k : Int, a ≤ k → k < b → p (charAtI t k) = true) →
      (bound - a).toNat ≤ fuel → scanWhileI p t bound fuel a = b := by
  intro fuel
  induction fuel with
  | zero =>
    intro a h1 h2 h3 h4
    have : a = b := by omega
    simpa [scanWhileI] using this
  | succ k ih =>
    intro a h1 h2 h3 h4
    rcases eq_or_lt_of_le h1 with heq | hlt
    · subst heq
      simp only [scanWhileI]
      rcases hstop with hb | hp
      · rw [if_neg (by omega)]
      · rw [if_neg (by simp [hp])]
    · simp only [scanWhileI]
      rw [if_pos ⟨by omega, h3 a (le_refl _) hlt⟩]
      exact ih (a + 1) (by omega) h2 (fun k hk1 hk2 => h3 k (by omega) hk2)
        (by omega)

theorem findAfterWs_eq_some_of (tg : Char) (t : List Char) {bound b : Int}
    (htgt : charAtI t b = some tg)
    (htg : tg ≠ ' ' ∧ tg ≠ '\n' ∧ tg ≠ '\r') :
    ∀ fuel (a : Int), a ≤ b → b ≤ bound →
      (∀ k : Int, a ≤ k → k < b →
        charAtI t k = some ' ' ∨ charAtI t k = some '\n' ∨
          charAtI t k = some '\r') →
      (bound - a).toNat ≤ fuel → findAfterWs tg t bound fuel a = some b := by
  intro fuel
  induction fuel with
  | zero =>
    intro a h1 h2 h3 h4
    have : a = b := by omega
    simpa [findAfterWs] using this
  | succ k ih =>
    intro a h1 h2 h3 h4
    rcases eq_or_lt_of_le h1 with heq | hlt
    · subst heq
      simp only [findAfterWs]
      rw [if_neg (by simp [htgt])]
    · have hws := h3 a (le_refl _) hlt
      have hne : ¬ charAtI t a = some tg := by
        intro hco
        rcases hws with h | h | h <;> rw [h] at hco <;>
            simp only [Option.some.injEq] at hco
        · exact htg.1 hco.symm
        · exact htg.2.1 hco.symm
        · exact htg.2.2 hco.symm
      simp only [findAfterWs]
      rw [if_pos ⟨by omega, hne⟩, if_neg (by tauto)]
      exact ih (a + 1) (by omega) h2 (fun k hk1 hk2 => h3 k (by omega) hk2)
        (by omega)

theorem findAfterWs_eq_none_of (tg : Char) (t : List Char) {bound b : Int}
    {c : Char} (hc : charAtI t b = some c)
    (hcn : c ≠ ' ' ∧ c ≠ '\n' ∧ c ≠ '\r' ∧ c ≠ tg) (hb : b < bound)
    (htg : tg ≠ ' ' ∧ tg ≠ '\n' ∧ tg ≠ '\r') :
    ∀ fuel (a : Int), a ≤ b →
      (∀ k : Int, a ≤ k → k < b →
        charAtI t k = some ' ' ∨ charAtI t k = some '\n' ∨
          charAtI t k = some '\r') →
      (bound - a).toNat ≤ fuel → findAfterWs tg t bound fuel a = none := by
  intro fuel
  induction fuel with
  | zero =>
    intro a h1 h3 h4
    omega
  | succ k ih =>
    intro a h1 h3 h4
    rcases eq_or_lt_of_le h1 with heq | hlt
    · subst heq
      have hne : ¬ charAtI t a = some tg := by
        rw [hc]
        simp only [Option.some.injEq]
        exact hcn.2.2.2
      simp only [findAfterWs]
      rw [if_pos ⟨hb, hne⟩, if_pos]
      rw [hc]
      simp only [Option.some.injEq]
      exact ⟨hcn.1, hcn.2.1, hcn.2.2.1⟩
    · have hws := h3 a (le_refl _) hlt
      have hne : ¬ charAtI t a = some tg := by
        intro hco
        rcases hws with h | h | h <;> rw [h] at hco <;>
            simp only [Option.some.injEq] at hco
        · exact htg.1 hco.symm
        · exact htg.2.1 hco.symm
        · exact htg.2.2 hco.symm
      simp only [findAfterWs]
      rw [if_pos ⟨by omega, hne⟩, if_neg (by tauto)]
      exact ih (a + 1) (by omega) (fun k hk1 hk2 => h3 k (by omega) hk2)
        (by omega)

theorem findParenEnd_depth_nonpos (t : List Char) (bound : Int) :
    ∀ fuel (pos d : Int), d ≤ 0 → findParenEnd t bound fuel pos d = pos := by
  intro fuel
  cases fuel with
  | zero => intro pos d _; rfl
  | succ k =>
    intro pos d hd
    simp only [findParenEnd]
    rw [if_neg (by omega)]

theorem findParenEnd_no_nest (t : List Char) {bound b : Int}
    (hc : charAtI t b = some ')') (hb : b < bound) :
    ∀ fuel (a : Int), a ≤ b →
      (∀ k : Int, a ≤ k → k < b →
        ¬ charAtI t k = some '(' ∧ ¬ charAtI t k = some ')') →
      (bound - a).toNat ≤ fuel → findParenEnd t bound fuel a 1 = b + 1 := by
  intro fuel
  induction fuel with
  | zero => intro a h1 h3 h4; omega
  | succ k ih =>
    intro a h1 h3 h4
    rcases eq_or_lt_of_le h1 with heq | hlt
    · subst heq
      simp only [findParenEnd]
      rw [if_pos ⟨hb, by omega⟩]
      rw [if_neg (by rw [hc]; simp), if_pos hc]
      have h0 : (1 : Int) - 1 = 0 := by norm_num
      rw [h0]
      exact findParenEnd_depth_nonpos t bound k (a + 1) 0 (le_refl _)
    · have hmid := h3 a (le_refl _) hlt
      simp only [findParenEnd]
      rw [if_pos ⟨by omega, by omega⟩, if_neg hmid.1, if_neg hmid.2]
      exact ih (a + 1) (by omega) (fun k hk1 hk2 => h3 k (by omega) hk2)
        (by omega)

theorem findParenEnd_unbalanced (t : List Char) {bound : Int} :
    ∀ fuel (a d : Int), a ≤ bound → (bound - a).toNat ≤ fuel →
      (∀ k : Nat, (k : Int) ≤ bound - a → 0 < parenDepthFrom t d k a) →
      findParenEnd t bound fuel a d = bound := by
  intro fuel
  induction fuel with
  | zero =>
    intro a d h1 h2 h3
    have : a = bound := by omega
    simpa [findParenEnd] using this
  | succ k ih =>
    intro a d h1 h2 h3
    rcases eq_or_lt_of_le h1 with heq | hlt
    · simp only [findParenEnd]
      rw [if_neg (by omega)]
      exact heq
    · have hd : 0 < d := by
        have := h3 0 (by omega)
        simpa [parenDepthFrom] using this
      simp only [findParenEnd]
      rw [if_pos ⟨hlt, hd⟩]
      exact ih (a + 1) _ (by omega) (by omega)
        (fun j hj => by
          have := h3 (j + 1) (by push_cast; omega)
          simpa [parenDepthFrom] using this)

/-! ## The highlight loop: fuel irrelevance and the step equations -/

theorem highlightLoop_of_ge (text : List Char) {pos : Int}
    (h : (text.length : Int) ≤ pos) :
    ∀ fuel, highlightLoop text fuel pos = [] := by
  intro fuel
  cases fuel with
  | zero => rfl
  | succ k =>
    simp only [highlightLoop]
    rw [if_neg (by omega)]

theorem highlightLoop_fuel_congr (text : List Char) :
    ∀ f1 f2 pos, ((text.length : Int) - pos).toNat ≤ f1 →
      ((text.length : Int) - pos).toNat ≤ f2 →
      highlightLoop text f1 pos = highlightLoop text f2 pos := by
  intro f1
  induction f1 with
  | zero =>
    intro f2 pos h1 h2
    have hge : (text.length : Int) ≤ pos := by omega
    rw [highlightLoop_of_ge text hge, highlightLoop_of_ge text hge]
  | succ k ih =>
    intro f2 pos h1 h2
    by_cases hge : (text.length : Int) ≤ pos
    · rw [highlightLoop_of_ge text hge, highlightLoop_of_ge text hge]
    · push_neg at hge
      obtain ⟨m, rfl⟩ : ∃ m, f2 = m + 1 := ⟨f2 - 1, by omega⟩
      simp only [highlightLoop]
      rw [if_pos hge, if_pos hge]
      split
      · rfl
      · rename_i i ho
        split
        · rfl
        · rename_i j hcl
          have hib := indexOfEqEq_some_bounds text ho
          have hjb := indexOfEqEq_some_bounds text hcl
          congr 1
          exact ih m (j + 2) (by omega) (by omega)

theorem highlightExtract_eq_run (text : List Char) :
    highlightExtract text = highlightRun text 0 := rfl

/-! ## Claim 8: the highlight scanner -/

/-- C8: for each successive pair of `==` delimiters with at least one
character of content between them, the scanner emits exactly two 2-character
`hide` ranges over the delimiters and one `highlight` range over the
interior, then rescans from just past the consumed closing delimiter; an
opening `==` with no subsequent closing `==` (second conjunct), or no opening
pair at all (first conjunct), yields no decoration.  `indexOfEqEq` is the
source's `text.indexOf("==", pos)`: a returned index is the least position
`≥ pos` carrying two `=` characters (theorem `indexOfEqEq_some`). -/
theorem c8_highlight_scanner_step (text : List Char) (pos : Int) :
    (indexOfEqEq text ((text.length : Int) - pos).toNat pos = none →
      highlightRun text pos = []) ∧
    (∀ i : Int,
      indexOfEqEq text ((text.length : Int) - pos).toNat pos = some i →
      indexOfEqEq text ((text.length : Int) - (i + 2)).toNat (i + 2) = none →
      highlightRun text pos = []) ∧
    (∀ i j : Int,
      indexOfEqEq text ((text.length : Int) - pos).toNat pos = some i →
      indexOfEqEq text ((text.length : Int) - (i + 2)).toNat (i + 2) = some j →
      highlightRun text pos =
        (if i + 2 < j then
          [mkR i (i + 2) DecType.hide, mkR j (j + 2) DecType.hide,
           mkR (i + 2) j DecType.highlight]
         else []) ++ highlightRun text (j + 2)) := by
  by_cases hge : (text.length : Int) ≤ pos
  · have hfuel : ((text.length : Int) - pos).toNat = 0 := by omega
    refine ⟨fun _ => highlightLoop_of_ge text hge _, ?_, ?_⟩
    · intro i hi
      rw [hfuel] at hi
      exact absurd hi (by simp [indexOfEqEq])
    · intro i j hi
      rw [hfuel] at hi
      exact absurd hi (by simp [indexOfEqEq])
  · push_neg at hge
    obtain ⟨m, hm⟩ : ∃ m, ((text.length : Int) - pos).toNat = m + 1 :=
      ⟨((text.length : Int) - pos).toNat - 1, by omega⟩
    refine ⟨?_, ?_, ?_⟩
    · intro ho
      unfold highlightRun
      rw [hm]
      simp only [highlightLoop]
      rw [if_pos hge]
      split
      · rfl
      · rename_i i2 ho2
        rw [ho] at ho2
        exact absurd ho2 (by simp)
    · intro i ho hc
      unfold highlightRun
      rw [hm]
      simp only [highlightLoop]
      rw [if_pos hge]
      split
      · rfl
      · rename_i i2 ho2
        have hi : i = i2 := by rw [ho] at ho2; exact Option.some.inj ho2
        rw [← hi]
        split
        · rfl
        · rename_i j2 hcl
          rw [hc] at hcl
          exact absurd hcl (by simp)
    · intro i j ho hc
      have hib := indexOfEqEq_some_bounds text ho
      have hjb := indexOfEqEq_some_bounds text hc
      unfold highlightRun
      rw [hm]
      simp only [highlightLoop]
      rw [if_pos hge]
      split
      · rename_i ho2
        rw [ho] at ho2
        exact absurd ho2 (by simp)
      · rename_i i2 ho2
        have hi : i = i2 := by rw [ho] at ho2; exact Option.some.inj ho2
        rw [← hi]
        split
        · rename_i hcl
          rw [hc] at hcl
          exact absurd hcl (by simp)
        · rename_i j2 hcl
          have hj : j = j2 := by rw [hc] at hcl; exact Option.some.inj hcl
          rw [← hj]
          congr 1
          exact highlightLoop_fuel_congr text m _ (j + 2) (by omega) (by omega)

theorem c8_witness :
    (highlightRun ['=', '=', 'a', '=', '='] 0 =
      (if (0 : Int) + 2 < 3 then
        [mkR 0 (0 + 2) DecType.hide, mkR 3 (3 + 2) DecType.hide,
         mkR (0 + 2) 3 DecType.highlight]
       else []) ++ highlightRun ['=', '=', 'a', '=', '='] (3 + 2)) ∧
    highlightRun ['=', '=', 'a'] 0 = [] ∧
    highlightRun ['a', 'b'] 0 = [] :=
  ⟨(c8_highlight_scanner_step ['=', '=', 'a', '=', '='] 0).2.2 0 3
      (by decide) (by decide),
   (c8_highlight_scanner_step ['=', '=', 'a'] 0).2.1 0
      (by decide) (by decide),
   (c8_highlight_scanner_step ['a', 'b'] 0).1 (by decide)⟩

/-! ## Indexing the characters of a link-node slice -/

theorem get?_append_left {l1 l2 : List Char} {i : Nat} (h : i < l1.length) :
    (l1 ++ l2).get? i = l1.get? i := by
  rw [List.get?_eq_getElem?, List.get?_eq_getElem?, List.getElem?_append,
    if_pos h]

theorem get?_append_right {l1 l2 : List Char} {i : Nat} (h : l1.length ≤ i) :
    (l1 ++ l2).get? i = l2.get? (i - l1.length) := by
  rw [List.get?_eq_getElem?, List.get?_eq_getElem?, List.getElem?_append,
    if_neg (by omega)]

theorem charAtI_of_slice {text L : List Char} {s e : Nat}
    (hslice : natSlice text s e = L) {i : Nat} (hi : i < e - s) :
    charAtI text ((s : Int) + i) = L.get? i := by
  have h1 : (s : Int) + i = ((s + i : Nat) : Int) := by push_cast; ring
  rw [h1, charAtI_of_get?, ← hslice, natSlice_get?, if_pos (by omega)]

/-! ## Claim 5: the standard inline link form -/

/-- C5: for a link node of the standard inline form `[text](url)` with
non-empty text (slice `'[' txt ']' '(' url ')'`, `txt` free of `]`, `url`
free of parentheses, nothing between `]` and `(`), the handler emits exactly
a hide over `[`, a hide over `]`, one hide over the whole `(url)` span and a
`link` range over exactly the bracketed text; consequently no link-typed
range covers the URL characters (second conjunct: every link range ends
before the `(`).  Third conjunct: if any non-whitespace character appears
between the `]` and the `(`, the handler emits nothing. -/
theorem c5_standard_inline_link (n : Node) (text : List Char) (s e : Nat)
    (txt url : List Char)
    (hpos : validPos n = some (s, e)) (hty : n.type = NType.link)
    (hlen : e ≤ text.length)
    (hslice : natSlice text s e = '[' :: (txt ++ ']' :: '(' :: (url ++ [')'])))
    (htxt : txt ≠ []) (htxtbr : ']' ∉ txt)
    (hurlp : '(' ∉ url) (hurlq : ')' ∉ url)
    (hauto : ¬ charAtI text ((s : Int) - 1) = some '<' ∨
      ¬ charAtI text (e : Int) = some '>') :
    (linkHandler n text =
      [mkR (s : Int) ((s : Int) + 1) DecType.hide,
       mkR ((s : Int) + 1 + (txt.length : Int))
         ((s : Int) + 1 + (txt.length : Int) + 1) DecType.hide,
       mkR ((s : Int) + 1 + (txt.length : Int) + 1) (e : Int) DecType.hide,
       mkR ((s : Int) + 1) ((s : Int) + 1 + (txt.length : Int))
         DecType.link]) ∧
    (∀ d ∈ linkHandler n text, d.type = DecType.link →
      d.endPos ≤ (s : Int) + 1 + (txt.length : Int)) ∧
    (∀ (text2 : List Char) (n2 : Node) (s2 e2 : Nat) (b2 k2 : Int) (c : Char),
      validPos n2 = some (s2, e2) → e2 ≤ text2.length →
      charAtI text2 (s2 : Int) = some '[' →
      (s2 : Int) + 1 ≤ b2 → b2 < (e2 : Int) →
      charAtI text2 b2 = some ']' →
      (∀ k : Int, (s2 : Int) + 1 ≤ k → k < b2 →
        ¬ charAtI text2 k = some ']') →
      b2 + 1 ≤ k2 → k2 < (e2 : Int) →
      (∀ k : Int, b2 + 1 ≤ k → k < k2 →
        charAtI text2 k = some ' ' ∨ charAtI text2 k = some '\n' ∨
          charAtI text2 k = some '\r') →
      charAtI text2 k2 = some c →
      c ≠ ' ' → c ≠ '\n' → c ≠ '\r' → c ≠ '(' →
      (¬ charAtI text2 ((s2 : Int) - 1) = some '<' ∨
        ¬ charAtI text2 (e2 : Int) = some '>') →
      linkHandler n2 text2 = []) := by
  have hlength : e - s = txt.length + url.length + 4 := by
    have hl := congrArg List.length hslice
    rw [natSlice_length, min_eq_left hlen] at hl
    simp only [List.length_cons, List.length_append, List.length_nil] at hl
    omega
  have hse : s < e := by omega
  -- the characters of the node slice
  have hL0 : charAtI text (s : Int) = some '[' := by
    have := charAtI_of_slice hslice (i := 0) (by omega)
    simpa using this
  have hLbr : charAtI text ((s : Int) + 1 + (txt.length : Int)) =
      some ']' := by
    have := charAtI_of_slice hslice (i := 1 + txt.length) (by omega)
    rw [show (s : Int) + 1 + (txt.length : Int) = (s : Int) + ((1 + txt.length : Nat) : Int) from by push_cast; ring]
    rw [this, show (1 + txt.length) = txt.length + 1 from by omega,
      List.get?_cons_succ, get?_append_right (le_refl _)]
    simp
  have hLpar : charAtI text ((s : Int) + 1 + (txt.length : Int) + 1) =
      some '(' := by
    have := charAtI_of_slice hslice (i := 2 + txt.length) (by omega)
    rw [show (s : Int) + 1 + (txt.length : Int) + 1 = (s : Int) + ((2 + txt.length : Nat) : Int) from by push_cast; ring]
    rw [this, show (2 + txt.length) = (txt.length + 1) + 1 from by omega,
      List.get?_cons_succ, get?_append_right (by omega)]
    simp [show txt.length + 1 - txt.length = 1 from by omega]
  have hLcl : charAtI text ((e : Int) - 1) = some ')' := by
    have h9 := charAtI_of_slice hslice (i := 3 + txt.length + url.length)
      (by omega)
    rw [show (e : Int) - 1 = (s : Int) + ((3 + txt.length + url.length : Nat) : Int) from by push_cast; omega]
    rw [h9, show (3 + txt.length + url.length) = (2 + txt.length + url.length) + 1 from by omega,
      List.get?_cons_succ,
      get?_append_right (show txt.length ≤ 2 + txt.length + url.length from by omega),
      show 2 + txt.length + url.length - txt.length = (1 + url.length) + 1 from by omega,
      List.get?_cons_succ,
      show (1 + url.length) = url.length + 1 from by omega,
      List.get?_cons_succ, get?_append_right (le_refl _)]
    simp
  have hmidtxt : ∀ k : Int, (s : Int) + 1 ≤ k →
      k < (s : Int) + 1 + (txt.length : Int) →
      ∃ c ∈ txt, charAtI text k = some c := by
    intro k hk1 hk2
    obtain ⟨j, rfl, hjlt⟩ : ∃ j : Nat, k = (s : Int) + ((1 + j : Nat) : Int) ∧
        j < txt.length := ⟨(k - s - 1).toNat, by push_cast; omega, by omega⟩
    rw [charAtI_of_slice hslice (by omega)]
    rw [show (1 + j) = j + 1 from by omega, List.get?_cons_succ,
      get?_append_left hjlt]
    cases hg : txt.get? j with
    | none => rw [List.get?_eq_none] at hg; omega
    | some c => exact ⟨c, List.get?_mem hg, rfl⟩
  have hmidurl : ∀ k : Int, (s : Int) + 1 + (txt.length : Int) + 1 + 1 ≤ k →
      k < (e : Int) - 1 → ∃ c ∈ url, charAtI text k = some c := by
    intro k hk1 hk2
    obtain ⟨j, rfl, hjlt⟩ : ∃ j : Nat,
        k = (s : Int) + ((3 + txt.length + j : Nat) : Int) ∧
        j < url.length := ⟨(k - s - 3 - txt.length).toNat, by push_cast; omega, by omega⟩
    rw [charAtI_of_slice hslice (by omega)]
    rw [show (3 + txt.length + j) = (2 + txt.length + j) + 1 from by omega,
      List.get?_cons_succ,
      get?_append_right (show txt.length ≤ 2 + txt.length + j from by omega),
      show 2 + txt.length + j - txt.length = (1 + j) + 1 from by omega,
      List.get?_cons_succ,
      show (1 + j) = j + 1 from by omega,
      List.get?_cons_succ, get?_append_left (by omega)]
    cases hg : url.get? j with
    | none => rw [List.get?_eq_none] at hg; omega
    | some c => exact ⟨c, List.get?_mem hg, rfl⟩
  -- the guards of the handler
  have hc1 : ¬ ((if (0 : Int) < (s : Int) then charAtI text ((s : Int) - 1)
        else none) = some '<' ∧
      (if (e : Int) < (text.length : Int) then charAtI text (e : Int)
        else none) = some '>') := by
    rintro ⟨hb, ha⟩
    rcases hauto with h | h
    · split at hb
      · exact h hb
      · exact absurd hb (by simp)
    · split at ha
      · exact h ha
      · exact absurd ha (by simp)
  have hc2 : ¬ ((if (s : Int) < (text.length : Int) then charAtI text (s : Int)
        else none) = some '<' ∧
      (if (0 : Int) < (e : Int) then charAtI text ((e : Int) - 1)
        else none) = some '>') := by
    rintro ⟨hb, _⟩
    split at hb
    · rw [hL0] at hb
      exact absurd hb (by simp)
    · exact absurd hb (by simp)
  have hsub : jsSubstring text (s : Int) (e : Int) =
      '[' :: (txt ++ ']' :: '(' :: (url ++ [')'])) := by
    rw [jsSubstring_eq_natSlice (by omega) (by exact_mod_cast Nat.le_of_lt hse)
      (by exact_mod_cast hlen), Int.toNat_ofNat, Int.toNat_ofNat]
    exact hslice
  -- the three scans
  have hbr_eq : scanWhileI (fun c => !(c == some ']')) text (e : Int)
      ((e : Int) - ((s : Int) + 1)).toNat ((s : Int) + 1) =
      (s : Int) + 1 + (txt.length : Int) := by
    apply scanWhileI_eq_of
    · right
      rw [hLbr]
      simp
    · omega
    · omega
    · intro k hk1 hk2
      obtain ⟨c, hcm, hceq⟩ := hmidtxt k hk1 hk2
      rw [hceq]
      simp only [Bool.not_eq_true']
      rw [beq_eq_false_iff_ne]
      simp only [ne_eq, Option.some.injEq]
      exact fun he => htxtbr (he ▸ hcm)
    · omega
  have hfa_eq : findAfterWs '(' text (e : Int)
      ((e : Int) - ((s : Int) + 1 + (txt.length : Int) + 1)).toNat
      ((s : Int) + 1 + (txt.length : Int) + 1) =
      some ((s : Int) + 1 + (txt.length : Int) + 1) := by
    apply findAfterWs_eq_some_of '(' text hLpar (by decide)
    · exact le_refl _
    · omega
    · intro k hk1 hk2
      omega
    · omega
  have hpe_eq : findParenEnd text (e : Int)
      ((e : Int) - ((s : Int) + 1 + (txt.length : Int) + 1 + 1)).toNat
      ((s : Int) + 1 + (txt.length : Int) + 1 + 1) 1 = (e : Int) := by
    have h10 := @findParenEnd_no_nest text (e : Int) ((e : Int) - 1) hLcl
      (by omega)
      ((e : Int) - ((s : Int) + 1 + (txt.length : Int) + 1 + 1)).toNat
      ((s : Int) + 1 + (txt.length : Int) + 1 + 1) (by omega)
      (fun k hk1 hk2 => by
        obtain ⟨c, hcm, hceq⟩ := hmidurl k hk1 hk2
        rw [hceq]
        constructor <;> simp only [ne_eq, Option.some.injEq] <;>
          intro he
        · exact hurlp (he ▸ hcm)
        · exact hurlq (he ▸ hcm))
      (by omega)
    rw [h10]
    omega
  have hout : linkHandler n text =
      [mkR (s : Int) ((s : Int) + 1) DecType.hide,
       mkR ((s : Int) + 1 + (txt.length : Int))
         ((s : Int) + 1 + (txt.length : Int) + 1) DecType.hide,
       mkR ((s : Int) + 1 + (txt.length : Int) + 1) (e : Int) DecType.hide,
       mkR ((s : Int) + 1) ((s : Int) + 1 + (txt.length : Int))
         DecType.link] := by
    have htxtlen : 0 < txt.length := List.length_pos.mpr htxt
    simp only [linkHandler, hpos, linkExtract, hsub, hc1, hc2, hbr_eq, hfa_eq,
      hpe_eq, List.head?_cons, if_false, if_true]
    rw [if_neg (by simp), if_neg (by omega), if_neg (by omega),
      if_pos ⟨by omega, by omega⟩, if_pos (by omega)]
    rfl
  refine ⟨hout, ?_, ?_⟩
  · intro d hd hdt
    rw [hout] at hd
    simp only [List.mem_cons, List.not_mem_nil, or_false] at hd
    rcases hd with rfl | rfl | rfl | rfl
    · exact absurd hdt (by simp [mkR])
    · exact absurd hdt (by simp [mkR])
    · exact absurd hdt (by simp [mkR])
    · simp [mkR]
  · intro text2 n2 s2 e2 b2 k2 c hpos2 hlen2 hhead2 hb1 hb2 hbch hbmid hk1 hk2
      hkmid hkch hc1a hc2a hc3a hc4a hauto2
    have hse2 : (s2 : Int) < (e2 : Int) := by
      have := charAtI_eq_some hbch
      omega
    have hc1b : ¬ ((if (0 : Int) < (s2 : Int) then
          charAtI text2 ((s2 : Int) - 1) else none) = some '<' ∧
        (if (e2 : Int) < (text2.length : Int) then charAtI text2 (e2 : Int)
          else none) = some '>') := by
      rintro ⟨hb, ha⟩
      rcases hauto2 with h | h
      · split at hb
        · exact h hb
        · exact absurd hb (by simp)
      · split at ha
        · exact h ha
        · exact absurd ha (by simp)
    have hc2b : ¬ ((if (s2 : Int) < (text2.length : Int) then
          charAtI text2 (s2 : Int) else none) = some '<' ∧
        (if (0 : Int) < (e2 : Int) then charAtI text2 ((e2 : Int) - 1)
          else none) = some '>') := by
      rintro ⟨hb, _⟩
      split at hb
      · rw [hhead2] at hb
        exact absurd hb (by simp)
      · exact absurd hb (by simp)
    have hsub2 : (jsSubstring text2 (s2 : Int) (e2 : Int)).head? =
        some '[' := by
      rw [jsSubstring_eq_natSlice (by omega) (by omega)
        (by exact_mod_cast hlen2), Int.toNat_ofNat, Int.toNat_ofNat,
        List.head?_eq_getElem?, ← List.get?_eq_getElem?, natSlice_get?,
        if_pos (by omega)]
      rw [Nat.add_zero, ← charAtI_of_get?]
      exact hhead2
    have hbr2 : scanWhileI (fun c => !(c == some ']')) text2 (e2 : Int)
        ((e2 : Int) - ((s2 : Int) + 1)).toNat ((s2 : Int) + 1) = b2 := by
      apply scanWhileI_eq_of
      · right
        rw [hbch]
        simp
      · omega
      · omega
      · intro k hka hkb
        have := hbmid k hka hkb
        simp only [Bool.not_eq_true']
        rw [beq_eq_false_iff_ne]
        exact this
      · omega
    have hfa2 : findAfterWs '(' text2 (e2 : Int)
        ((e2 : Int) - (b2 + 1)).toNat (b2 + 1) = none := by
      apply findAfterWs_eq_none_of '(' text2 hkch
        ⟨hc1a, hc2a, hc3a, hc4a⟩ hk2 (by decide)
      · omega
      · exact hkmid
      · omega
    simp only [linkHandler, hpos2, linkExtract, hc1b, hc2b, hsub2, hbr2,
      hfa2, if_false, if_true]
    rw [if_neg (by simp), if_neg (by omega)]

/-- A concrete standard inline link `x[text](url)`: node span `[1, 12)`. -/
theorem c5_witness :
    (linkHandler
        (Node.mk NType.link 0 (some (some 1, some 11)) NodeList.nil)
        ['x', '[', 't', 'x', 't', ']', '(', 'u', 'r', 'l', ')', 'z'] =
      [mkR 1 2 DecType.hide, mkR 5 6 DecType.hide, mkR 6 11 DecType.hide,
       mkR 2 5 DecType.link]) ∧
    (mkR 2 5 DecType.link).endPos ≤ (1 : Int) + 1 + 3 ∧
    linkHandler (Node.mk NType.link 0 (some (some 0, some 8)) NodeList.nil)
      ['[', 'a', ']', 'x', '(', 'b', ')', 'y'] = [] := by
  have h := c5_standard_inline_link
    (Node.mk NType.link 0 (some (some 1, some 11)) NodeList.nil)
    ['x', '[', 't', 'x', 't', ']', '(', 'u', 'r', 'l', ')', 'z'] 1 11
    ['t', 'x', 't'] ['u', 'r', 'l'] (by decide) (by decide) (by decide)
    (by decide) (by decide) (by decide) (by decide) (by decide)
    (Or.inl (by decide))
  refine ⟨h.1, h.2.1 (mkR 2 5 DecType.link) (by rw [h.1]; simp) (by decide),
    h.2.2 ['[', 'a', ']', 'x', '(', 'b', ')', 'y']
      (Node.mk NType.link 0 (some (some 0, some 8)) NodeList.nil) 0 8 2 3 'x'
      (by decide) (by decide) (by decide) (by decide) (by decide) (by decide)
      (by decide) (by decide) (by decide) (by decide) (by decide) (by decide)
      (by decide) (by decide) (by decide) (Or.inl (by decide))⟩

/-! ## Claim 10: unbalanced parentheses in a link node -/

/-- C10: for a link node that begins with `[`, has its first closing `]` at
`b` followed (after only whitespace) by an opening `(` at `p`, and whose
parentheses never balance within the node span (the running depth stays
positive through the node end), the depth-counted scan stops at the node end
without requiring a matching `)`, and the handler still emits the two bracket
hides, a hide from the `(` through the node's end offset, and the link range
over the bracketed text. -/
theorem c10_unbalanced_paren_link (n : Node) (text : List Char) (s e : Nat)
    (b p : Int)
    (hpos : validPos n = some (s, e)) (hty : n.type = NType.link)
    (hlen : e ≤ text.length)
    (hhead : charAtI text (s : Int) = some '[')
    (hb1 : (s : Int) + 1 < b) (hb2 : b < (e : Int))
    (hbch : charAtI text b = some ']')
    (hbmid : ∀ k : Int, (s : Int) + 1 ≤ k → k < b →
      ¬ charAtI text k = some ']')
    (hp1 : b + 1 ≤ p) (hp2 : p < (e : Int))
    (hpch : charAtI text p = some '(')
    (hpmid : ∀ k : Int, b + 1 ≤ k → k < p →
      charAtI text k = some ' ' ∨ charAtI text k = some '\n' ∨
        charAtI text k = some '\r')
    (hunbal : ∀ k : Nat, k ≤ ((e : Int) - (p + 1)).toNat →
      0 < parenDepthFrom text 1 k (p + 1))
    (hauto : ¬ charAtI text ((s : Int) - 1) = some '<' ∨
      ¬ charAtI text (e : Int) = some '>') :
    linkHandler n text =
      [mkR (s : Int) ((s : Int) + 1) DecType.hide,
       mkR b (b + 1) DecType.hide,
       mkR p (e : Int) DecType.hide,
       mkR ((s : Int) + 1) b DecType.link] := by
  have hse : (s : Int) < (e : Int) := by omega
  have hc1 : ¬ ((if (0 : Int) < (s : Int) then charAtI text ((s : Int) - 1)
        else none) = some '<' ∧
      (if (e : Int) < (text.length : Int) then charAtI text (e : Int)
        else none) = some '>') := by
    rintro ⟨hbq, haq⟩
    rcases hauto with h | h
    · split at hbq
      · exact h hbq
      · exact absurd hbq (by simp)
    · split at haq
      · exact h haq
      · exact absurd haq (by simp)
  have hc2 : ¬ ((if (s : Int) < (text.length : Int) then charAtI text (s : Int)
        else none) = some '<' ∧
      (if (0 : Int) < (e : Int) then charAtI text ((e : Int) - 1)
        else none) = some '>') := by
    rintro ⟨hbq, _⟩
    split at hbq
    · rw [hhead] at hbq
      exact absurd hbq (by simp)
    · exact absurd hbq (by simp)
  have hsub : (jsSubstring text (s : Int) (e : Int)).head? = some '[' := by
    rw [jsSubstring_eq_natSlice (by omega) (by omega) (by exact_mod_cast hlen),
      Int.toNat_ofNat, Int.toNat_ofNat, List.head?_eq_getElem?,
      ← List.get?_eq_getElem?, natSlice_get?, if_pos (by omega), Nat.add_zero,
      ← charAtI_of_get?]
    exact hhead
  have hbr : scanWhileI (fun c => !(c == some ']')) text (e : Int)
      ((e : Int) - ((s : Int) + 1)).toNat ((s : Int) + 1) = b := by
    apply scanWhileI_eq_of
    · right
      rw [hbch]
      simp
    · omega
    · omega
    · intro k hka hkb
      have := hbmid k hka hkb
      simp only [Bool.not_eq_true']
      rw [beq_eq_false_iff_ne]
      exact this
    · omega
  have hfa : findAfterWs '(' text (e : Int) ((e : Int) - (b + 1)).toNat
      (b + 1) = some p := by
    apply findAfterWs_eq_some_of '(' text hpch (by decide)
    · exact hp1
    · omega
    · exact hpmid
    · omega
  have hpe : findParenEnd text (e : Int) ((e : Int) - (p + 1)).toNat
      (p + 1) 1 = (e : Int) := by
    apply findParenEnd_unbalanced text ((e : Int) - (p + 1)).toNat (p + 1) 1
      (by omega) (by omega)
    intro k hk
    exact hunbal k (by omega)
  simp only [linkHandler, hpos, linkExtract, hc1, hc2, hsub, hbr, hfa, hpe,
    List.head?_cons, if_false, if_true]
  rw [if_neg (by simp), if_neg (by omega), if_neg (by omega),
    if_pos ⟨by omega, by omega⟩, if_pos (by omega)]
  rfl

/-- A concrete unbalanced link `[a](b c`: node span `[0, 7)`. -/
theorem c10_witness :
    linkHandler (Node.mk NType.link 0 (some (some 0, some 7)) NodeList.nil)
      ['[', 'a', ']', '(', 'b', ' ', 'c'] =
      [mkR 0 1 DecType.hide, mkR 2 3 DecType.hide, mkR 3 7 DecType.hide,
       mkR 1 2 DecType.link] := by
  have h := c10_unbalanced_paren_link
    (Node.mk NType.link 0 (some (some 0, some 7)) NodeList.nil)
    ['[', 'a', ']', '(', 'b', ' ', 'c'] 0 7 2 3 (by decide) (by decide)
    (by decide) (by decide) (by decide) (by decide) (by decide)
    (by intro k hk1 hk2; interval_cases k <;> decide)
    (by decide) (by decide) (by decide)
    (by intro k hk1 hk2; omega)
    (by decide)
    (Or.inl (by decide))
  simpa using h

/-! ## Membership facts about the preorder walk -/

theorem self_mem_preorder (n : Node) : n ∈ preorder n := by
  cases n
  rw [preorder]
  exact List.mem_cons_self _ _

theorem mem_toList_preorderList (c : Node) :
    ∀ l : NodeList, c ∈ l.toList → c ∈ preorderList l
  | .nil, h => by simp [NodeList.toList] at h
  | .cons x r, h => by
    rw [NodeList.toList] at h
    rw [preorderList]
    rcases List.mem_cons.mp h with rfl | h2
    · exact List.mem_append.mpr (Or.inl (self_mem_preorder c))
    · exact List.mem_append.mpr (Or.inr (mem_toList_preorderList c r h2))

mutual
/-- The children of a visited node are visited too. -/
theorem mem_children_preorder :
    ∀ (a n : Node), n ∈ preorder a → ∀ c ∈ n.children.toList, c ∈ preorder a
  | .mk ty d p cl, n, hn, c, hc => by
    rw [preorder] at hn ⊢
    rcases List.mem_cons.mp hn with rfl | hn2
    · exact List.mem_cons_of_mem _ (mem_toList_preorderList c _ hc)
    · exact List.mem_cons_of_mem _ (mem_children_preorderList cl n hn2 c hc)
theorem mem_children_preorderList :
    ∀ (l : NodeList) (n : Node), n ∈ preorderList l →
      ∀ c ∈ n.children.toList, c ∈ preorderList l
  | .nil, n, hn, _, _ => by simp [preorderList] at hn
  | .cons x r, n, hn, c, hc => by
    rw [preorderList] at hn ⊢
    rcases List.mem_append.mp hn with h | h
    · exact List.mem_append.mpr (Or.inl (mem_children_preorder x n h c hc))
    · exact List.mem_append.mpr
        (Or.inr (mem_children_preorderList r n h c hc))
end

/-! ## The highlight scanner's output shape -/

theorem highlightLoop_shape (text : List Char) :
    ∀ fuel pos, ∀ d ∈ highlightLoop text fuel pos,
      HLDec text d ∧ pos ≤ d.startPos := by
  intro fuel
  induction fuel with
  | zero => intro pos d hd; simp [highlightLoop] at hd
  | succ k ih =>
    intro pos d hd
    rw [highlightLoop] at hd
    split at hd
    · rename_i hlt
      split at hd
      · simp at hd
      · rename_i i ho
        split at hd
        · simp at hd
        · rename_i j hc
          obtain ⟨hi1, hic1, hic2⟩ := indexOfEqEq_some text _ _ _ ho
          obtain ⟨hj1, hjc1, hjc2⟩ := indexOfEqEq_some text _ _ _ hc
          obtain ⟨hia, hib, _⟩ := charAtI_eq_some hic1
          obtain ⟨_, hib2, _⟩ := charAtI_eq_some hic2
          obtain ⟨hja, hjb, _⟩ := charAtI_eq_some hjc1
          obtain ⟨_, hjb2, _⟩ := charAtI_eq_some hjc2
          rcases List.mem_append.mp hd with hmem | hmem
          · split at hmem
            · rename_i hcontent
              simp only [List.mem_cons, List.not_mem_nil, or_false] at hmem
              rcases hmem with rfl | rfl | rfl
              · exact ⟨Or.inl ⟨rfl, by show (0 : Int) ≤ i; omega, rfl,
                  by show i + 2 ≤ (text.length : Int); omega, hic1, hic2⟩,
                  by show pos ≤ i; omega⟩
              · exact ⟨Or.inl ⟨rfl, by show (0 : Int) ≤ j; omega, rfl,
                  by show j + 2 ≤ (text.length : Int); omega, hjc1, hjc2⟩,
                  by show pos ≤ j; omega⟩
              · exact ⟨Or.inr ⟨rfl, by show (0 : Int) ≤ i + 2; omega,
                  by show i + 2 < j; exact hcontent,
                  by show j ≤ (text.length : Int); omega⟩,
                  by show pos ≤ i + 2; omega⟩
            · simp at hmem
          · have := ih (j + 2) d hmem
            exact ⟨this.1, by omega⟩
    · simp at hd

theorem highlightLoop_pairwise (text : List Char) :
    ∀ fuel pos, (highlightLoop text fuel pos).Pairwise
      (fun a b => tripleKey a ≠ tripleKey b) := by
  intro fuel
  induction fuel with
  | zero => intro pos; simp [highlightLoop]
  | succ k ih =>
    intro pos
    rw [highlightLoop]
    split
    · split
      · simp
      · rename_i i ho
        split
        · simp
        · rename_i j hc
          obtain ⟨hi1, _, hic2⟩ := indexOfEqEq_some text _ _ _ ho
          obtain ⟨hj1, _, _⟩ := indexOfEqEq_some text _ _ _ hc
          rw [List.pairwise_append]
          refine ⟨?_, ih (j + 2), ?_⟩
          · split
            · rename_i hcontent
              simp only [List.pairwise_cons, List.mem_cons,
                List.not_mem_nil, or_false, List.Pairwise.nil]
              refine ⟨?_, ?_, ?_⟩
              · intro b hb
                rcases hb with rfl | rfl <;>
                  simp only [tripleKey, mkR, ne_eq, Prod.mk.injEq] <;>
                  intro hcon
                · omega
                · simp at hcon
              · intro b hb
                rcases hb with rfl <;>
                  simp only [tripleKey, mkR, ne_eq, Prod.mk.injEq] <;>
                  intro hcon
                simp at hcon
              · simp
            · simp
          · intro a ha b hb
            have hbge := (highlightLoop_shape text k (j + 2) b hb).2
            have haub : a.startPos < j + 2 := by
              split at ha
              · simp only [List.mem_cons, List.not_mem_nil, or_false] at ha
                rcases ha with rfl | rfl | rfl <;> simp [mkR] <;> omega
              · simp at ha
            simp only [tripleKey, ne_eq, Prod.mk.injEq]
            intro hcon
            omega
    · simp

/-! ## Per-handler output invariants -/

theorem goodDec_mk {text : List Char} {a b : Int} {ty : DecType}
    (h1 : 0 ≤ a) (h2 : a < b) (h3 : b ≤ (text.length : Int))
    (h4 : ty ≠ DecType.highlight)
    (h5 : ty = DecType.hide → b = a + 2 →
      ¬ (charAtI text a = some '=' ∧ charAtI text (a + 1) = some '=')) :
    GoodDec text (mkR a b ty) :=
  ⟨h1, h2, h3, h4, h5⟩

theorem goodDec_mk_level {text : List Char} {a b : Int} {ty : DecType}
    {lv : Option Nat}
    (h1 : 0 ≤ a) (h2 : a < b) (h3 : b ≤ (text.length : Int))
    (h4 : ty ≠ DecType.highlight)
    (h5 : ty = DecType.hide → b = a + 2 →
      ¬ (charAtI text a = some '=' ∧ charAtI text (a + 1) = some '=')) :
    GoodDec text (⟨a, b, ty, lv⟩ : DecorationRange) :=
  ⟨h1, h2, h3, h4, h5⟩

theorem charAtI_of_jsSubstring {text L : List Char} {a b : Int}
    (h0 : 0 ≤ a) (hab : a ≤ b) (hb2 : b ≤ (text.length : Int))
    (hsl : jsSubstring text a b = L) {i : Nat} (hi : (i : Int) < b - a) :
    charAtI text (a + i) = L.get? i := by
  rw [← hsl, jsSubstring_eq_natSlice h0 hab hb2, natSlice_get?,
    if_pos (by omega)]
  unfold charAtI
  rw [if_pos (by omega)]
  congr 1
  omega



theorem headingTypeOf_ne (depth : Nat) :
    headingTypeOf depth ≠ DecType.highlight ∧
      headingTypeOf depth ≠ DecType.hide := by
  unfold headingTypeOf
  split <;> exact ⟨by simp, by simp⟩

/-- HorizontalRuleHandler: bounds and scanner-collision freedom. -/
theorem horizontalRuleHandler_good (n : Node) (text : List Char) (s e : Nat)
    (hpos : validPos n = some (s, e)) (hse : s < e) (hlen : e ≤ text.length)
    (hmin : 3 ≤ e - s) :
    ∀ d ∈ horizontalRuleHandler n text, GoodDec text d := by
  intro d hd
  simp only [horizontalRuleHandler, hpos, horizontalRuleExtract,
    List.mem_cons, List.not_mem_nil, or_false] at hd
  rcases hd with rfl | rfl
  · exact goodDec_mk (by omega) (by exact_mod_cast hse)
      (by exact_mod_cast hlen) (by simp)
      (fun _ hb => absurd hb (by omega))
  · exact goodDec_mk (by omega) (by exact_mod_cast hse)
      (by exact_mod_cast hlen) (by simp) (by simp)

/-- InlineCodeHandler: bounds and scanner-collision freedom. -/
theorem inlineCodeHandler_good (n : Node) (text : List Char) (s e : Nat)
    (hpos : validPos n = some (s, e)) (hse : s < e) (hlen : e ≤ text.length)
    (hmin : 2 ≤ e - s) :
    ∀ d ∈ inlineCodeHandler n text, GoodDec text d := by
  intro d hd
  simp only [inlineCodeHandler, hpos, inlineCodeExtract, List.mem_cons,
    List.not_mem_nil, or_false] at hd
  rcases hd with rfl | rfl | rfl
  · exact goodDec_mk (by omega) (by omega) (by push_cast; omega) (by simp)
      (fun _ hb => absurd hb (by omega))
  · exact goodDec_mk (by push_cast; omega) (by omega) (by push_cast; omega)
      (by simp) (fun _ hb => absurd hb (by omega))
  · split
    · exact goodDec_mk (by omega) (by omega) (by push_cast; omega) (by simp)
        (by simp)
    · rename_i hne
      exact goodDec_mk (by omega) (by push_cast at hne ⊢; omega)
        (by push_cast; omega) (by simp) (by simp)

/-- DeleteHandler: bounds and scanner-collision freedom. -/
theorem deleteHandler_good (n : Node) (text : List Char) (s e : Nat)
    (hpos : validPos n = some (s, e)) (hse : s < e) (hlen : e ≤ text.length)
    (hs1 : ¬ text.get? s = some '=') (hs2 : ¬ text.get? (e - 1) = some '=') :
    ∀ d ∈ deleteHandler n text, GoodDec text d := by
  intro d hd
  simp only [deleteHandler, hpos, deleteExtract] at hd
  split at hd
  · simp at hd
  · rename_i hlong
    simp only [List.mem_cons, List.not_mem_nil, or_false] at hd
    rcases hd with rfl | rfl | rfl
    · refine goodDec_mk (by omega) (by omega) (by push_cast at hlong ⊢; omega)
        (by simp) (fun _ _ hpair => ?_)
      rw [charAtI_of_get?] at hpair
      exact hs1 hpair.1
    · refine goodDec_mk (by push_cast at hlong ⊢; omega) (by omega)
        (by push_cast; omega) (by simp) (fun _ _ hpair => ?_)
      apply hs2
      have he1 : (e : Int) - 2 + 1 = ((e - 1 : Nat) : Int) := by
        push_cast at hlong ⊢
        omega
      rw [he1, charAtI_of_get?] at hpair
      exact hpair.2
    · exact goodDec_mk (by omega) (by push_cast at hlong ⊢; omega)
        (by push_cast; omega) (by simp) (by simp)

/-- EmphasisHandler: bounds and scanner-collision freedom. -/
theorem emphasisHandler_good (n : Node) (text : List Char) (s e : Nat)
    (hpos : validPos n = some (s, e)) (hse : s < e) (hlen : e ≤ text.length)
    (hmin : 3 ≤ e - s) :
    ∀ d ∈ emphasisHandler n text, GoodDec text d := by
  intro d hd
  simp only [emphasisHandler, hpos, emphasisExtract] at hd
  split at hd
  · simp at hd
  · split at hd
    · simp at hd
    · simp only [ite_self, List.mem_cons, List.not_mem_nil, or_false] at hd
      rcases hd with rfl | rfl | rfl
      · exact goodDec_mk (by omega) (by omega) (by push_cast; omega)
          (by simp) (fun _ hb => absurd hb (by omega))
      · exact goodDec_mk (by push_cast; omega) (by omega)
          (by push_cast; omega) (by simp) (fun _ hb => absurd hb (by omega))
      · exact goodDec_mk (by omega) (by push_cast; omega)
          (by push_cast; omega) (by simp) (by simp)

theorem findContentStart_bounds (text : List Char) {a b : Int} (hab : a ≤ b) :
    a ≤ findContentStart text a b ∧ findContentStart text a b ≤ b := by
  simp only [findContentStart]
  set p1 := scanWhileI (fun c => c == some ' ' || c == some '\t') text b
      (b - a).toNat a with hp1
  have e1a : a ≤ p1 := le_scanWhileI _ _ _ _ _
  have e1b : p1 ≤ b := scanWhileI_le_bound _ _ _ _ _ hab
  set p2 := scanWhileI (fun c => !(c == some '\n') && !(c == some '\r') &&
      !(c == some ' ') && !(c == some '\t')) text b (b - p1).toNat p1 with hp2
  have e2a : p1 ≤ p2 := le_scanWhileI _ _ _ _ _
  have e2b : p2 ≤ b := scanWhileI_le_bound _ _ _ _ _ e1b
  set p3 := scanWhileI (fun c => c == some ' ' || c == some '\t') text b
      (b - p2).toNat p2 with hp3
  have e3a : p2 ≤ p3 := le_scanWhileI _ _ _ _ _
  have e3b : p3 ≤ b := scanWhileI_le_bound _ _ _ _ _ e2b
  have e4a : p3 ≤ scanWhileI (fun c => c == some '\n' || c == some '\r') text
      b (b - p3).toNat p3 := le_scanWhileI _ _ _ _ _
  have e4b : scanWhileI (fun c => c == some '\n' || c == some '\r') text b
      (b - p3).toNat p3 ≤ b := scanWhileI_le_bound _ _ _ _ _ e3b
  exact ⟨by omega, by omega⟩

/-- HeadingHandler: bounds and scanner-collision freedom. -/
theorem headingHandler_good (n : Node) (text : List Char) (s e : Nat)
    (hpos : validPos n = some (s, e)) (hse : s < e) (hlen : e ≤ text.length)
    (hhWF : ¬ (e - s = 2 ∧ text.get? s = some '=' ∧
      text.get? (s + 1) = some '=')) :
    ∀ d ∈ headingHandler n text, GoodDec text d := by
  intro d hd
  simp only [headingHandler, hpos, headingExtract] at hd
  split at hd
  · -- no marker match: empty heading or whole-span fallback hide
    split at hd
    · simp at hd
    · simp only [List.mem_cons, List.not_mem_nil, or_false] at hd
      subst hd
      refine goodDec_mk (by omega) (by exact_mod_cast hse)
        (by exact_mod_cast hlen) (by simp) (fun _ hb hpair => ?_)
      apply hhWF
      refine ⟨by omega, ?_, ?_⟩
      · rw [← charAtI_of_get?]
        exact hpair.1
      · rw [← charAtI_of_get?, show ((s + 1 : Nat) : Int) = (s : Int) + 1 from by push_cast; ring]
        exact hpair.2
  · -- marker matched
    rename_i m hm
    obtain ⟨lws, hashes, ws⟩ := m
    obtain ⟨hh1, hh6, hw1, hsum, hchar⟩ := headingMarkerMatch_spec hm
    have hslen : (jsSubstring text (s : Int) (e : Int)).length = e - s := by
      have := jsSubstring_length (t := text) (a := (s : Int)) (b := (e : Int))
        (by omega) (by exact_mod_cast Nat.le_of_lt hse)
        (by exact_mod_cast hlen)
      omega
    rw [hslen] at hsum
    split at hd
    · simp at hd
    · rename_i hcontent
      simp only [List.mem_cons, List.not_mem_nil, or_false] at hd
      rcases hd with rfl | rfl
      · refine goodDec_mk (by omega) (by omega) (by push_cast; omega)
          (by simp) (fun _ _ hpair => ?_)
        have hmk : charAtI text ((s : Int) + (lws : Int)) = some '#' := by
          have := charAtI_of_jsSubstring (L := jsSubstring text (s : Int) (e : Int))
            (a := (s : Int)) (b := (e : Int)) (by omega)
            (by exact_mod_cast Nat.le_of_lt hse) (by exact_mod_cast hlen)
            rfl (i := lws) (by push_cast; omega)
          rw [this]
          exact hchar
        rw [hmk] at hpair
        exact absurd hpair.1 (by simp)
      · push_cast at hcontent
        refine goodDec_mk_level (by omega) (by omega) (by push_cast; omega)
          (headingTypeOf_ne n.depth).1
          (fun hty => absurd hty (headingTypeOf_ne n.depth).2)

/-- CodeBlockHandler: bounds and scanner-collision freedom. -/
theorem codeBlockHandler_good (n : Node) (text : List Char) (s e : Nat)
    (hpos : validPos n = some (s, e)) (hse : s < e) (hlen : e ≤ text.length) :
    ∀ d ∈ codeBlockHandler n text, GoodDec text d := by
  intro d hd
  simp only [codeBlockHandler, hpos, codeBlockExtract] at hd
  split at hd
  · simp only [List.mem_cons, List.not_mem_nil, or_false] at hd
    subst hd
    exact goodDec_mk (by omega) (by exact_mod_cast hse)
      (by exact_mod_cast hlen) (by simp) (by simp)
  · rename_i openLen closeLen hfm
    obtain ⟨ho3, hc3, hsum⟩ := fenceMatch_spec hfm
    have hslen : (jsSubstring text (s : Int) (e : Int)).length = e - s := by
      have := jsSubstring_length (t := text) (a := (s : Int)) (b := (e : Int))
        (by omega) (by exact_mod_cast Nat.le_of_lt hse)
        (by exact_mod_cast hlen)
      omega
    rw [hslen] at hsum
    split at hd
    · simp only [List.mem_cons, List.not_mem_nil, or_false] at hd
      subst hd
      exact goodDec_mk (by omega) (by exact_mod_cast hse)
        (by exact_mod_cast hlen) (by simp) (by simp)
    · have hcsb := findContentStart_bounds text
        (a := (s : Int) + (openLen : Int)) (b := (e : Int) - (closeLen : Int))
        (by push_cast; omega)
      simp only [List.mem_cons, List.not_mem_nil, or_false] at hd
      rcases hd with rfl | rfl | rfl
      · exact goodDec_mk (by omega) (by push_cast at hcsb ⊢; omega)
          (by push_cast at hcsb ⊢; omega) (by simp)
          (fun _ hb => absurd hb (by push_cast at hcsb ⊢; omega))
      · exact goodDec_mk (by push_cast; omega) (by push_cast; omega)
          (by push_cast; omega) (by simp)
          (fun _ hb => absurd hb (by push_cast; omega))
      · exact goodDec_mk (by omega) (by exact_mod_cast hse)
          (by exact_mod_cast hlen) (by simp) (by simp)

/-- The decorations of the blockquote line loop. -/
theorem blockquoteLines_good (text : List Char) (e : Int)
    (he : e ≤ (text.length : Int)) :
    ∀ fuel pos, 0 ≤ pos → ∀ d ∈ blockquoteLines text e fuel pos,
      GoodDec text d := by
  intro fuel
  induction fuel with
  | zero => intro pos _ d hd; simp [blockquoteLines] at hd
  | succ k ih =>
    intro pos hpos0 d hd
    rw [blockquoteLines] at hd
    split at hd
    · rename_i hlt
      rcases List.mem_append.mp hd with hmem | hmem
      · -- a marker hide on the current line
        dsimp only at hmem
        split at hmem
        · rename_i lws mk2 trail hbm
          set q := scanWhileI
              (fun c => !(c == some '\n') && !(c == some '\r')) text e
              (e - pos).toNat pos with hqdef
          have hle1 : pos ≤ q := le_scanWhileI _ _ _ _ _
          have hle2 : q ≤ e := scanWhileI_le_bound _ _ _ _ _ (by omega)
          obtain ⟨hm1, hmsum, hmch⟩ := blockquoteMarkerMatch_spec hbm
          have hllen : (jsSubstring text pos q).length = (q - pos).toNat := by
            have h13 := jsSubstring_length (t := text) (a := pos) (b := q)
              hpos0 hle1 (by omega)
            omega
          rw [hllen] at hmsum
          split at hmem
          · simp only [List.mem_cons, List.not_mem_nil, or_false] at hmem
            subst hmem
            refine goodDec_mk (by omega) (by rename_i hne; omega)
              (by push_cast; omega) (by simp) (fun _ _ hpair => ?_)
            have hlws : (lws : Int) < q - pos := by omega
            have hgt : charAtI text (pos + (lws : Int)) = some '>' := by
              have h12 := @charAtI_of_jsSubstring text
                (jsSubstring text pos q) pos q hpos0 hle1 (by omega) rfl
                lws hlws
              rw [h12]
              exact hmch
            rw [hgt] at hpair
            exact absurd hpair.1 (by simp)
          · simp at hmem
        · simp at hmem
      · -- decorations of the following lines
        refine ih _ ?_ d hmem
        have hle1 : pos ≤ scanWhileI
            (fun c => !(c == some '\n') && !(c == some '\r')) text e
            (e - pos).toNat pos := le_scanWhileI _ _ _ _ _
        split <;> split <;> omega
    · simp at hd

/-- BlockquoteHandler: bounds and scanner-collision freedom. -/
theorem blockquoteHandler_good (n : Node) (text : List Char) (s e : Nat)
    (hpos : validPos n = some (s, e)) (hse : s < e) (hlen : e ≤ text.length) :
    ∀ d ∈ blockquoteHandler n text, GoodDec text d := by
  intro d hd
  simp only [blockquoteHandler, hpos, blockquoteExtract] at hd
  have hls1 : 0 ≤ findLineStart text (s : Int).toNat (s : Int) :=
    findLineStart_nonneg text _ _ (by omega)
  have hls2 : findLineStart text (s : Int).toNat (s : Int) ≤ (s : Int) :=
    findLineStart_le text _ _
  rcases List.mem_append.mp hd with hmem | hmem
  · exact blockquoteLines_good text (e : Int) (by exact_mod_cast hlen) _ _
      hls1 d hmem
  · simp only [List.mem_cons, List.not_mem_nil, or_false] at hmem
    subst hmem
    exact goodDec_mk hls1 (by push_cast; omega) (by exact_mod_cast hlen)
      (by simp) (by simp)

/-- The decorations of `StrongHandler.processChildrenForBoldItalic` on a
list of well-formed children. -/
theorem processChildren_good (text : List Char) :
    ∀ children : NodeList,
      (∀ c ∈ children.toList, nodeWF text c = true) →
      ∀ d ∈ processChildrenForBoldItalic text children, GoodDec text d
  | .nil, _, d, hd => by
    simp [processChildrenForBoldItalic] at hd
  | .cons child rest, hwf, d, hd => by
    rw [processChildrenForBoldItalic] at hd
    rcases List.mem_append.mp hd with hmem | hmem
    · have hnw := hwf child (by simp [NodeList.toList])
      split at hmem
      · rename_i cs0 ce0 hvp
        simp only [nodeWF, hvp] at hnw
        split at hmem
        · rename_i hty
          rw [hty] at hnw
          simp only [Bool.and_eq_true, decide_eq_true_eq] at hnw
          obtain ⟨⟨hb1, hb2⟩, hb3⟩ := hnw
          simp only [ite_self, List.mem_cons, List.not_mem_nil,
            or_false] at hmem
          rcases hmem with rfl | rfl | rfl
          · exact goodDec_mk (by omega) (by omega) (by push_cast; omega)
              (by simp) (fun _ hb => absurd hb (by omega))
          · exact goodDec_mk (by push_cast; omega) (by omega)
              (by push_cast; omega) (by simp)
              (fun _ hb => absurd hb (by omega))
          · exact goodDec_mk (by omega) (by push_cast; omega)
              (by push_cast; omega) (by simp) (by simp)
        · simp only [Bool.and_eq_true, decide_eq_true_eq] at hnw
          obtain ⟨⟨hb1, hb2⟩, -⟩ := hnw
          simp only [List.mem_cons, List.not_mem_nil, or_false] at hmem
          subst hmem
          exact goodDec_mk (by omega) (by push_cast; omega)
            (by push_cast; omega) (by simp) (by simp)
      · simp at hmem
    · refine processChildren_good text rest (fun c hc => hwf c ?_) d hmem
      rw [NodeList.toList]
      exact List.mem_cons_of_mem _ hc

/-- StrongHandler: bounds and scanner-collision freedom. -/
theorem strongHandler_good (n : Node) (text : List Char) (s e : Nat)
    (hpos : validPos n = some (s, e)) (hse : s < e) (hlen : e ≤ text.length)
    (hmin : 5 ≤ e - s) (hs1 : ¬ text.get? s = some '=')
    (hs2 : ¬ text.get? (e - 1) = some '=')
    (hcwf : ∀ c ∈ n.children.toList, nodeWF text c = true) :
    ∀ d ∈ strongHandler n text, GoodDec text d := by
  intro d hd
  simp only [strongHandler, hpos, strongExtract] at hd
  split at hd
  · -- bold-italic branch: 3-character outer hides plus the child decorations
    simp only [ite_self] at hd
    rcases List.mem_append.mp hd with hmem | hmem
    · simp only [List.mem_cons, List.not_mem_nil, or_false] at hmem
      rcases hmem with rfl | rfl
      · exact goodDec_mk (by omega) (by omega) (by push_cast; omega)
          (by simp) (fun _ hb => absurd hb (by omega))
      · exact goodDec_mk (by push_cast; omega) (by omega)
          (by push_cast; omega) (by simp) (fun _ hb => absurd hb (by omega))
    · exact processChildren_good text n.children hcwf d hmem
  · -- plain bold branch: 2-character hides over the strong delimiters
    simp only [ite_self, List.mem_cons, List.not_mem_nil, or_false] at hd
    rcases hd with rfl | rfl | rfl
    · refine goodDec_mk (by omega) (by omega) (by push_cast; omega)
        (by simp) (fun _ _ hpair => ?_)
      rw [charAtI_of_get?] at hpair
      exact hs1 hpair.1
    · refine goodDec_mk (by push_cast; omega) (by omega)
        (by push_cast; omega) (by simp) (fun _ _ hpair => ?_)
      apply hs2
      have he1 : (e : Int) - 2 + 1 = ((e - 1 : Nat) : Int) := by omega
      rw [he1, charAtI_of_get?] at hpair
      exact hpair.2
    · exact goodDec_mk (by omega) (by push_cast; omega) (by push_cast; omega)
        (by simp) (by simp)

/-- LinkHandler: bounds and scanner-collision freedom. -/
theorem linkHandler_good (n : Node) (text : List Char) (s e : Nat)
    (hpos : validPos n = some (s, e)) (hse : s < e) (hlen : e ≤ text.length)
    (hmin : 3 ≤ e - s) :
    ∀ d ∈ linkHandler n text, GoodDec text d := by
  intro d hd
  simp only [linkHandler, hpos, linkExtract] at hd
  by_cases hA : (if (0 : Int) < (s : Int) then charAtI text ((s : Int) - 1)
        else none) = some '<' ∧
      (if (e : Int) < (text.length : Int) then charAtI text (e : Int)
        else none) = some '>'
  · -- autolink with the angle brackets just outside the node span
    rw [if_pos hA] at hd
    obtain ⟨hA1, hA2⟩ := hA
    have hs0 : (0 : Int) < (s : Int) := by
      by_contra hc
      rw [if_neg hc] at hA1
      simp at hA1
    have he0 : (e : Int) < (text.length : Int) := by
      by_contra hc
      rw [if_neg hc] at hA2
      simp at hA2
    simp only [List.mem_cons, List.not_mem_nil, or_false] at hd
    rcases hd with rfl | rfl | rfl
    · exact goodDec_mk (by omega) (by omega) (by push_cast; omega)
        (by simp) (fun _ hb => absurd hb (by omega))
    · exact goodDec_mk (by omega) (by omega) (by omega)
        (by simp) (fun _ hb => absurd hb (by omega))
    · exact goodDec_mk (by omega) (by exact_mod_cast hse)
        (by exact_mod_cast hlen) (by simp) (by simp)
  · rw [if_neg hA] at hd
    by_cases hB : (if (s : Int) < (text.length : Int) then charAtI text (s : Int)
          else none) = some '<' ∧
        (if (0 : Int) < (e : Int) then charAtI text ((e : Int) - 1)
          else none) = some '>'
    · -- autolink with the angle brackets inside the node span
      rw [if_pos hB] at hd
      simp only [List.mem_cons, List.not_mem_nil, or_false] at hd
      rcases hd with rfl | rfl | rfl
      · exact goodDec_mk (by omega) (by omega) (by push_cast; omega)
          (by simp) (fun _ hb => absurd hb (by omega))
      · exact goodDec_mk (by push_cast; omega) (by omega)
          (by push_cast; omega) (by simp) (fun _ hb => absurd hb (by omega))
      · exact goodDec_mk (by omega) (by push_cast; omega)
          (by push_cast; omega) (by simp) (by simp)
    · rw [if_neg hB] at hd
      split at hd
      · simp at hd
      · -- standard inline form
        set be := scanWhileI (fun c => !(c == some ']')) text (e : Int)
            ((e : Int) - ((s : Int) + 1)).toNat ((s : Int) + 1) with hbedef
        have hbe1 : (s : Int) + 1 ≤ be := le_scanWhileI _ _ _ _ _
        split at hd
        · simp at hd
        · rename_i hbe2
          split at hd
          · simp at hd
          · rename_i parenStart hfa
            have hps1 : be + 1 ≤ parenStart :=
              findAfterWs_some_le _ _ _ _ _ _ hfa
            split at hd
            · simp at hd
            · rename_i hps2
              set pe := findParenEnd text (e : Int)
                  ((e : Int) - (parenStart + 1)).toNat (parenStart + 1) 1
                with hpedef
              have hpe2 : pe ≤ (e : Int) :=
                findParenEnd_le_bound _ _ _ _ _ (by omega)
              have hpc : charAtI text parenStart = some '(' :=
                findAfterWs_some_char '(' text (e : Int) _ _ _ (by omega)
                  hfa (by omega)
              split at hd
              · rename_i hcond
                obtain ⟨hc1, hc2⟩ := hcond
                rcases List.mem_append.mp hd with hmem | hmem
                · simp only [List.mem_cons, List.not_mem_nil,
                    or_false] at hmem
                  rcases hmem with rfl | rfl | rfl
                  · exact goodDec_mk (by omega) (by omega)
                      (by push_cast; omega) (by simp)
                      (fun _ hb => absurd hb (by omega))
                  · exact goodDec_mk (by omega) (by omega) (by omega)
                      (by simp) (fun _ hb => absurd hb (by omega))
                  · refine goodDec_mk (by omega) (by omega) (by omega)
                      (by simp) (fun _ _ hpair => ?_)
                    rw [hpc] at hpair
                    exact absurd hpair.1 (by simp)
                · split at hmem
                  · rename_i hlink
                    simp only [List.mem_cons, List.not_mem_nil,
                      or_false] at hmem
                    subst hmem
                    exact goodDec_mk (by omega) (by omega) (by omega)
                      (by simp) (by simp)
                  · simp at hmem
              · simp at hd

/-- ImageHandler: bounds and scanner-collision freedom. -/
theorem imageHandler_good (n : Node) (text : List Char) (s e : Nat)
    (hpos : validPos n = some (s, e)) (hse : s < e) (hlen : e ≤ text.length) :
    ∀ d ∈ imageHandler n text, GoodDec text d := by
  intro d hd
  simp only [imageHandler, hpos, imageExtract] at hd
  split at hd
  · simp at hd
  · split at hd
    · simp at hd
    · rename_i hbr
      push_neg at hbr
      set be := scanWhileI (fun c => !(c == some ']')) text (e : Int)
          ((e : Int) - ((s : Int) + 1 + 1)).toNat ((s : Int) + 1 + 1)
        with hbedef
      have hbe1 : (s : Int) + 1 + 1 ≤ be := le_scanWhileI _ _ _ _ _
      split at hd
      · simp at hd
      · rename_i hbe2
        split at hd
        · simp at hd
        · rename_i parenStart hfa
          have hps1 : be + 1 ≤ parenStart :=
            findAfterWs_some_le _ _ _ _ _ _ hfa
          split at hd
          · simp at hd
          · rename_i hps2
            set pe := findParenEnd text (e : Int)
                ((e : Int) - (parenStart + 1)).toNat (parenStart + 1) 1
              with hpedef
            have hpe2 : pe ≤ (e : Int) :=
              findParenEnd_le_bound _ _ _ _ _ (by omega)
            have hpc : charAtI text parenStart = some '(' :=
              findAfterWs_some_char '(' text (e : Int) _ _ _ (by omega)
                hfa (by omega)
            split at hd
            · rename_i hcond
              obtain ⟨hc1, hc2, hc3⟩ := hcond
              rcases List.mem_append.mp hd with hmem | hmem
              · simp only [List.mem_cons, List.not_mem_nil, or_false] at hmem
                rcases hmem with rfl | rfl | rfl | rfl
                · exact goodDec_mk (by omega) (by omega)
                    (by push_cast; omega) (by simp)
                    (fun _ hb => absurd hb (by omega))
                · exact goodDec_mk (by omega) (by omega) (by omega)
                    (by simp) (fun _ hb => absurd hb (by omega))
                · exact goodDec_mk (by omega) (by omega) (by omega)
                    (by simp) (fun _ hb => absurd hb (by omega))
                · refine goodDec_mk (by omega) (by omega) (by omega)
                    (by simp) (fun _ _ hpair => ?_)
                  rw [hpc] at hpair
                  exact absurd hpair.1 (by simp)
              · split at hmem
                · rename_i himg
                  simp only [List.mem_cons, List.not_mem_nil,
                    or_false] at hmem
                  subst hmem
                  exact goodDec_mk (by omega) (by omega) (by omega)
                    (by simp) (by simp)
                · simp at hmem
            · simp at hd

/-- LinkReferenceHandler: bounds and scanner-collision freedom. -/
theorem linkReferenceHandler_good (n : Node) (text : List Char) (s e : Nat)
    (hpos : validPos n = some (s, e)) (hse : s < e) (hlen : e ≤ text.length) :
    ∀ d ∈ linkReferenceHandler n text, GoodDec text d := by
  intro d hd
  simp only [linkReferenceHandler, hpos, linkReferenceExtract] at hd
  split at hd
  · simp at hd
  · set be := scanWhileI (fun c => !(c == some ']')) text (e : Int)
        ((e : Int) - ((s : Int) + 1)).toNat ((s : Int) + 1) with hbedef
    have hbe1 : (s : Int) + 1 ≤ be := le_scanWhileI _ _ _ _ _
    split at hd
    · simp at hd
    · rename_i hbe2
      split at hd
      · simp at hd
      · rename_i refBracketStart hfa
        have hrs1 : be + 1 ≤ refBracketStart :=
          findAfterWs_some_le _ _ _ _ _ _ hfa
        split at hd
        · simp at hd
        · rename_i hrs2
          set re := scanWhileI (fun c => !(c == some ']')) text (e : Int)
              ((e : Int) - (refBracketStart + 1)).toNat (refBracketStart + 1)
            with hredef
          have hre1 : refBracketStart + 1 ≤ re := le_scanWhileI _ _ _ _ _
          have hrc : charAtI text refBracketStart = some '[' :=
            findAfterWs_some_char '[' text (e : Int) _ _ _ (by omega)
              hfa (by omega)
          split at hd
          · simp at hd
          · rename_i hre2
            split at hd
            · rename_i hcond
              obtain ⟨hc1, hc2⟩ := hcond
              rcases List.mem_append.mp hd with hmem | hmem
              · simp only [List.mem_cons, List.not_mem_nil, or_false] at hmem
                rcases hmem with rfl | rfl | rfl
                · exact goodDec_mk (by omega) (by omega)
                    (by push_cast; omega) (by simp)
                    (fun _ hb => absurd hb (by omega))
                · exact goodDec_mk (by omega) (by omega) (by omega)
                    (by simp) (fun _ hb => absurd hb (by omega))
                · refine goodDec_mk (by omega) (by omega) (by omega)
                    (by simp) (fun _ _ hpair => ?_)
                  rw [hrc] at hpair
                  exact absurd hpair.1 (by simp)
              · split at hmem
                · rename_i hlink
                  simp only [List.mem_cons, List.not_mem_nil,
                    or_false] at hmem
                  subst hmem
                  exact goodDec_mk (by omega) (by omega) (by omega)
                    (by simp) (by simp)
                · simp at hmem
            · simp at hd

/-- ImageReferenceHandler: bounds and scanner-collision freedom. -/
theorem imageReferenceHandler_good (n : Node) (text : List Char) (s e : Nat)
    (hpos : validPos n = some (s, e)) (hlen : e ≤ text.length) :
    ∀ d ∈ imageReferenceHandler n text, GoodDec text d := by
  intro d hd
  simp only [imageReferenceHandler, hpos, imageReferenceExtract] at hd
  split at hd
  · simp at hd
  · split at hd
    · simp at hd
    · rename_i hbr
      push_neg at hbr
      set be := scanWhileI (fun c => !(c == some ']')) text (e : Int)
          ((e : Int) - ((s : Int) + 1 + 1)).toNat ((s : Int) + 1 + 1)
        with hbedef
      have hbe1 : (s : Int) + 1 + 1 ≤ be := le_scanWhileI _ _ _ _ _
      split at hd
      · simp at hd
      · rename_i hbe2
        split at hd
        · simp at hd
        · rename_i refBracketStart hfa
          have hrs1 : be + 1 ≤ refBracketStart :=
            findAfterWs_some_le _ _ _ _ _ _ hfa
          split at hd
          · simp at hd
          · rename_i hrs2
            set re := scanWhileI (fun c => !(c == some ']')) text (e : Int)
                ((e : Int) - (refBracketStart + 1)).toNat
                (refBracketStart + 1) with hredef
            have hre1 : refBracketStart + 1 ≤ re := le_scanWhileI _ _ _ _ _
            have hrc : charAtI text refBracketStart = some '[' :=
              findAfterWs_some_char '[' text (e : Int) _ _ _ (by omega)
                hfa (by omega)
            split at hd
            · simp at hd
            · rename_i hre2
              split at hd
              · rename_i hcond
                obtain ⟨hc1, hc2, hc3⟩ := hcond
                rcases List.mem_append.mp hd with hmem | hmem
                · simp only [List.mem_cons, List.not_mem_nil,
                    or_false] at hmem
                  rcases hmem with rfl | rfl | rfl | rfl
                  · exact goodDec_mk (by omega) (by omega)
                      (by push_cast; omega) (by simp)
                      (fun _ hb => absurd hb (by omega))
                  · exact goodDec_mk (by omega) (by omega) (by omega)
                      (by simp) (fun _ hb => absurd hb (by omega))
                  · exact goodDec_mk (by omega) (by omega) (by omega)
                      (by simp) (fun _ hb => absurd hb (by omega))
                  · refine goodDec_mk (by omega) (by omega) (by omega)
                      (by simp) (fun _ _ hpair => ?_)
                    rw [hrc] at hpair
                    exact absurd hpair.1 (by simp)
                · split at hmem
                  · rename_i himg
                    simp only [List.mem_cons, List.not_mem_nil,
                      or_false] at hmem
                    subst hmem
                    exact goodDec_mk (by omega) (by omega) (by omega)
                      (by simp) (by simp)
                  · simp at hmem
              · simp at hd

/-- Dispatch: every decoration produced by a handler that can handle a
well-formed node (with well-formed children) is good. -/
theorem handlerExtract_good (text : List Char) (h : HandlerTag) (n : Node)
    (hch : canHandle h n = true) (hwf : nodeWF text n = true)
    (hcwf : ∀ c ∈ n.children.toList, nodeWF text c = true) :
    ∀ d ∈ handlerExtract h n text, GoodDec text d := by
  intro d hd
  rcases hvp : validPos n with - | ⟨s, e⟩
  · cases h <;>
      simp [handlerExtract, headingHandler, strongHandler, emphasisHandler,
        inlineCodeHandler, codeBlockHandler, blockquoteHandler,
        horizontalRuleHandler, deleteHandler, linkHandler, imageHandler,
        linkReferenceHandler, imageReferenceHandler, hvp] at hd
  · simp only [nodeWF, hvp, Bool.and_eq_true, decide_eq_true_eq] at hwf
    cases h
    · simp only [canHandle, decide_eq_true_eq] at hch
      simp only [hch] at hwf
      refine headingHandler_good n text s e hvp hwf.1.1 hwf.1.2
        (fun hco => ?_) d hd
      obtain ⟨hx1, hx2, hx3⟩ := hco
      have hc2 := hwf.2
      rw [hx1, hx2, hx3] at hc2
      exact absurd hc2 (by decide)
    · simp only [canHandle, decide_eq_true_eq] at hch
      simp only [hch, Bool.and_eq_true, decide_eq_true_eq,
        Bool.not_eq_true', beq_eq_false_iff_ne, ne_eq] at hwf
      exact strongHandler_good n text s e hvp hwf.1.1 hwf.1.2
        hwf.2.1.1 hwf.2.1.2 hwf.2.2 hcwf d hd
    · simp only [canHandle, decide_eq_true_eq] at hch
      simp only [hch, decide_eq_true_eq] at hwf
      exact emphasisHandler_good n text s e hvp hwf.1.1 hwf.1.2 hwf.2 d hd
    · simp only [canHandle, decide_eq_true_eq] at hch
      simp only [hch, decide_eq_true_eq] at hwf
      exact inlineCodeHandler_good n text s e hvp hwf.1.1 hwf.1.2 hwf.2 d hd
    · simp only [canHandle, decide_eq_true_eq] at hch
      simp only [hch] at hwf
      exact codeBlockHandler_good n text s e hvp hwf.1.1 hwf.1.2 d hd
    · simp only [canHandle, decide_eq_true_eq] at hch
      simp only [hch] at hwf
      exact blockquoteHandler_good n text s e hvp hwf.1.1 hwf.1.2 d hd
    · simp only [canHandle, decide_eq_true_eq] at hch
      simp only [hch, decide_eq_true_eq] at hwf
      exact horizontalRuleHandler_good n text s e hvp hwf.1.1 hwf.1.2
        hwf.2 d hd
    · simp only [canHandle, decide_eq_true_eq] at hch
      simp only [hch, Bool.and_eq_true, Bool.not_eq_true',
        beq_eq_false_iff_ne, ne_eq] at hwf
      exact deleteHandler_good n text s e hvp hwf.1.1 hwf.1.2 hwf.2.1
        hwf.2.2 d hd
    · simp only [canHandle, decide_eq_true_eq] at hch
      simp only [hch, decide_eq_true_eq] at hwf
      exact linkHandler_good n text s e hvp hwf.1.1 hwf.1.2 hwf.2 d hd
    · simp only [canHandle, decide_eq_true_eq] at hch
      simp only [hch] at hwf
      exact imageHandler_good n text s e hvp hwf.1.1 hwf.1.2 d hd
    · simp only [canHandle, decide_eq_true_eq] at hch
      simp only [hch] at hwf
      exact linkReferenceHandler_good n text s e hvp hwf.1.1 hwf.1.2 d hd
    · simp only [canHandle, decide_eq_true_eq] at hch
      simp only [hch] at hwf
      exact imageReferenceHandler_good n text s e hvp hwf.1.2 d hd

/-! ## The decoration collector -/

theorem mem_collectorAdd {acc : List DecorationRange} {d x : DecorationRange}
    (h : x ∈ collectorAdd acc d) : x ∈ acc ∨ x = d := by
  unfold collectorAdd at h
  split at h
  · exact Or.inl h
  · rcases List.mem_append.mp h with h1 | h1
    · exact Or.inl h1
    · simp only [List.mem_cons, List.not_mem_nil, or_false] at h1
      exact Or.inr h1

theorem mem_collectorAddAll {ds : List DecorationRange} :
    ∀ {acc : List DecorationRange} {x : DecorationRange},
      x ∈ collectorAddAll acc ds → x ∈ acc ∨ x ∈ ds := by
  induction ds with
  | nil => exact fun h => Or.inl h
  | cons d rest ih =>
    intro acc x h
    simp only [collectorAddAll, List.foldl_cons] at h
    rcases ih (x := x) h with h1 | h1
    · rcases mem_collectorAdd h1 with h2 | h2
      · exact Or.inl h2
      · exact Or.inr (by simp [h2])
    · exact Or.inr (List.mem_cons_of_mem _ h1)

/-- Every decoration accumulated by the visitor fold over a list of
well-formed nodes with well-formed children is good. -/
theorem foldVisit_good (text : List Char) :
    ∀ (ns : List Node) (st : List DecorationRange × List (Int × Int)),
      (∀ n ∈ ns, nodeWF text n = true) →
      (∀ n ∈ ns, ∀ c ∈ n.children.toList, nodeWF text c = true) →
      (∀ d ∈ st.1, GoodDec text d) →
      ∀ d ∈ (ns.foldl (visitStep text) st).1, GoodDec text d := by
  intro ns
  induction ns with
  | nil => intro st _ _ hst d hd; exact hst d hd
  | cons n rest ih =>
    intro st hwf hcwf hst d hd
    rw [List.foldl_cons] at hd
    refine ih (visitStep text st n)
      (fun m hm => hwf m (List.mem_cons_of_mem _ hm))
      (fun m hm => hcwf m (List.mem_cons_of_mem _ hm)) ?_ d hd
    intro x hx
    unfold visitStep at hx
    split at hx
    · rename_i htag hfind
      rcases mem_collectorAddAll hx with h1 | h1
      · exact hst x h1
      · have hfind2 : handlerList.find? (fun t => canHandle t n) =
            some htag := hfind
        have hcan : (fun t => canHandle t n) htag = true :=
          List.find?_some (p := fun t => canHandle t n) (a := htag) hfind2
        exact handlerExtract_good text htag n hcan
          (hwf n (List.mem_cons_self _ _)) (hcwf n (List.mem_cons_self _ _))
          x h1
    · exact hst x hx

/-! ## Claim 1: every output range is inside the text -/

/-- C1: under the parser contract (`treeWF`, §: every resolvable node
position is a non-degenerate span inside the text and inline constructs
contain their delimiters), every decoration range in the list returned by
`extractDecorations` satisfies `0 ≤ startPos < endPos ≤ length text`. -/
theorem c1_output_ranges_in_bounds (ast : Node) (text : List Char)
    (hwf : treeWF text ast) :
    ∀ d ∈ extractDecorations ast text,
      0 ≤ d.startPos ∧ d.startPos < d.endPos ∧
        d.endPos ≤ (text.length : Int) := by
  intro d hd
  simp only [extractDecorations] at hd
  rcases List.mem_append.mp hd with hmem | hmem
  · have hsub := List.mem_of_mem_filter hmem
    have hgood := foldVisit_good text (preorder ast) ([], []) hwf
      (fun n hn c hc => hwf c (mem_children_preorder ast n hn c hc))
      (fun x hx => absurd hx (List.not_mem_nil x)) d hsub
    exact ⟨hgood.1, hgood.2.1, hgood.2.2.1⟩
  · simp only [highlightExtract] at hmem
    have hs := (highlightLoop_shape text text.length 0 d hmem).1
    rcases hs with ⟨-, h1, h2, h3, -, -⟩ | ⟨-, h1, h2, h3⟩
    · exact ⟨h1, by omega, h3⟩
    · exact ⟨h1, h2, h3⟩

theorem c1_witness :
    (∀ n ∈ preorder (Node.mk NType.root 0 (some (some 0, some 9))
        (NodeList.cons (Node.mk NType.emphasis 0 (some (some 0, some 3))
          NodeList.nil) NodeList.nil)),
      nodeWF ['*', 'i', '*', ' ', '=', '=', 'h', '=', '='] n = true) ∧
    (∀ d ∈ extractDecorations
        (Node.mk NType.root 0 (some (some 0, some 9))
          (NodeList.cons (Node.mk NType.emphasis 0 (some (some 0, some 3))
            NodeList.nil) NodeList.nil))
        ['*', 'i', '*', ' ', '=', '=', 'h', '=', '='],
      0 ≤ d.startPos ∧ d.startPos < d.endPos ∧
        d.endPos ≤ ((['*', 'i', '*', ' ', '=', '=', 'h', '=',
          '=']).length : Int)) :=
  ⟨by decide, c1_output_ranges_in_bounds
    (Node.mk NType.root 0 (some (some 0, some 9))
      (NodeList.cons (Node.mk NType.emphasis 0 (some (some 0, some 3))
        NodeList.nil) NodeList.nil))
    ['*', 'i', '*', ' ', '=', '=', 'h', '=', '=']
    (by unfold treeWF; decide)⟩

/-! ## Claim 2: no duplicate (startPos, endPos, type) triples -/

theorem pairwise_collectorAdd {acc : List DecorationRange}
    {d : DecorationRange}
    (h : acc.Pairwise (fun a b => tripleKey a ≠ tripleKey b)) :
    (collectorAdd acc d).Pairwise (fun a b => tripleKey a ≠ tripleKey b) := by
  unfold collectorAdd
  split
  · exact h
  · rename_i hany
    rw [List.pairwise_append]
    refine ⟨h, List.pairwise_singleton _ _, ?_⟩
    intro a ha b hb
    simp only [List.mem_cons, List.not_mem_nil, or_false] at hb
    subst hb
    simp only [List.any_eq_true, decide_eq_true_eq, not_exists,
      not_and] at hany
    exact fun hcon => hany a ha hcon

theorem pairwise_collectorAddAll (ds : List DecorationRange) :
    ∀ acc : List DecorationRange,
      acc.Pairwise (fun a b => tripleKey a ≠ tripleKey b) →
      (collectorAddAll acc ds).Pairwise
        (fun a b => tripleKey a ≠ tripleKey b) := by
  induction ds with
  | nil => exact fun _ h => h
  | cons d rest ih =>
    intro acc h
    simp only [collectorAddAll, List.foldl_cons]
    exact ih (collectorAdd acc d) (pairwise_collectorAdd h)

/-- The visitor fold keeps the collector free of duplicate triples. -/
theorem foldVisit_pairwise (text : List Char) :
    ∀ (ns : List Node) (st : List DecorationRange × List (Int × Int)),
      st.1.Pairwise (fun a b => tripleKey a ≠ tripleKey b) →
      ((ns.foldl (visitStep text) st).1).Pairwise
        (fun a b => tripleKey a ≠ tripleKey b) := by
  intro ns
  induction ns with
  | nil => exact fun st h => h
  | cons n rest ih =>
    intro st h
    rw [List.foldl_cons]
    refine ih (visitStep text st n) ?_
    unfold visitStep
    split
    · exact pairwise_collectorAddAll _ _ h
    · exact h

/-- A tree-derived decoration and a scanner decoration never share the
(startPos, endPos, type) triple. -/
theorem goodDec_hlDec_ne {text : List Char} {a b : DecorationRange}
    (ha : GoodDec text a) (hb : HLDec text b) :
    tripleKey a ≠ tripleKey b := by
  intro hcon
  simp only [tripleKey, Prod.mk.injEq] at hcon
  obtain ⟨hs, he, ht⟩ := hcon
  rcases hb with ⟨hbty, hb1, hb2, hb3, hbc1, hbc2⟩ | ⟨hbty, -, -, -⟩
  · exact ha.2.2.2.2 (by rw [ht, hbty]) (by omega)
      ⟨by rw [hs]; exact hbc1, by rw [hs]; exact hbc2⟩
  · exact ha.2.2.2.1 (by rw [ht, hbty])

/-- C2: under the parser contract, the returned list contains no two entries
with the same (startPos, endPos, type) triple — the collector deduplicates
the tree walk, the scanner's own ranges are distinct, and a scanner range
(a `highlight`, or a 2-character delimiter hide over `==`) never coincides
with a tree-derived one. -/
theorem c2_no_duplicate_triples (ast : Node) (text : List Char)
    (hwf : treeWF text ast) :
    (extractDecorations ast text).Pairwise
      (fun a b => tripleKey a ≠ tripleKey b) := by
  simp only [extractDecorations]
  rw [List.pairwise_append]
  refine ⟨?_, ?_, ?_⟩
  · exact List.Pairwise.filter _
      (foldVisit_pairwise text (preorder ast) ([], []) List.Pairwise.nil)
  · exact highlightLoop_pairwise text text.length 0
  · intro a ha b hb
    have hga := foldVisit_good text (preorder ast) ([], []) hwf
      (fun n hn c hc => hwf c (mem_children_preorder ast n hn c hc))
      (fun x hx => absurd hx (List.not_mem_nil x)) a
      (List.mem_of_mem_filter ha)
    exact goodDec_hlDec_ne hga (highlightLoop_shape text text.length 0 b hb).1

theorem c2_witness :
    (∀ n ∈ preorder (Node.mk NType.root 0 (some (some 0, some 5))
        NodeList.nil),
      nodeWF ['=', '=', 'h', '=', '='] n = true) ∧
    (extractDecorations (Node.mk NType.root 0 (some (some 0, some 5))
        NodeList.nil) ['=', '=', 'h', '=', '=']).Pairwise
      (fun a b => tripleKey a ≠ tripleKey b) :=
  ⟨by decide, c2_no_duplicate_triples
    (Node.mk NType.root 0 (some (some 0, some 5)) NodeList.nil)
    ['=', '=', 'h', '=', '='] (by unfold treeWF; decide)⟩

/-! ## Claim 4: claimed bold-italic spans suppress italic ranges -/

theorem mem_setAdd_self (l : List (Int × Int)) (x : Int × Int) :
    x ∈ setAdd l x := by
  unfold setAdd
  split
  · assumption
  · exact List.mem_append.mpr (Or.inr (List.mem_cons_self _ _))

theorem mem_setAdd_of_mem {l : List (Int × Int)} {x y : Int × Int}
    (h : y ∈ l) : y ∈ setAdd l x := by
  unfold setAdd
  split
  · exact h
  · exact List.mem_append.mpr (Or.inl h)

theorem claimedFold_mono :
    ∀ (l : NodeList) (acc : List (Int × Int)) (x : Int × Int),
      x ∈ acc → x ∈ claimedFold acc l
  | .nil, _, _, h => h
  | .cons child rest, acc, x, h => by
    rw [claimedFold]
    refine claimedFold_mono rest _ x ?_
    split
    · rename_i cs ce hvp
      split
      · dsimp only
        split
        · exact mem_setAdd_of_mem h
        · exact h
      · exact h
    · exact h

/-- The claimed-span fold records the content span of an emphasis child. -/
theorem claimedFold_mem (cs ce : Nat) :
    ∀ (children : NodeList) (acc : List (Int × Int)) (c : Node),
      c ∈ children.toList → c.type = NType.emphasis →
      validPos c = some (cs, ce) → (cs : Int) + 1 < (ce : Int) - 1 →
      ((cs : Int) + 1, (ce : Int) - 1) ∈ claimedFold acc children
  | .nil, _, c, hc, _, _, _ => by simp [NodeList.toList] at hc
  | .cons child rest, acc, c, hc, hcty, hcvp, hne => by
    rw [NodeList.toList] at hc
    rw [claimedFold]
    rcases List.mem_cons.mp hc with rfl | h2
    · refine claimedFold_mono rest _ _ ?_
      rw [hcvp]
      dsimp only
      rw [if_pos hcty, if_pos hne]
      exact mem_setAdd_self _ _
    · exact claimedFold_mem cs ce rest _ c h2 hcty hcvp hne

theorem hasEmphasisChild_of_mem :
    ∀ (l : NodeList) (c : Node), c ∈ l.toList → c.type = NType.emphasis →
      hasEmphasisChild l = true
  | .nil, c, hc, _ => by simp [NodeList.toList] at hc
  | .cons x r, c, hc, hty => by
    rw [NodeList.toList] at hc
    rw [hasEmphasisChild]
    rcases List.mem_cons.mp hc with rfl | h2
    · simp [hty]
    · simp [hasEmphasisChild_of_mem r c h2 hty]

theorem claimedStep_mono {claimed : List (Int × Int)} {x : Int × Int}
    (n : Node) (h : x ∈ claimed) : x ∈ claimedStep claimed n := by
  unfold claimedStep
  split
  · split
    · exact claimedFold_mono _ _ _ h
    · exact h
  · exact h

/-- The claimed set only grows along the visitor fold. -/
theorem foldVisit_claimed_mono (text : List Char) :
    ∀ (ns : List Node) (st : List DecorationRange × List (Int × Int))
      (x : Int × Int), x ∈ st.2 → x ∈ (ns.foldl (visitStep text) st).2 := by
  intro ns
  induction ns with
  | nil => exact fun _ _ h => h
  | cons n rest ih =>
    intro st x h
    rw [List.foldl_cons]
    refine ih (visitStep text st n) x ?_
    unfold visitStep
    split
    · exact claimedStep_mono n h
    · exact h

/-- `findHandler` resolves a strong node to the strong handler. -/
theorem findHandler_strong {n : Node} (h : n.type = NType.strong) :
    findHandler n = some HandlerTag.strong := by
  simp [findHandler, handlerList, canHandle, h]

/-- Visiting a strong node with a positioned emphasis child records the
child's content span in the claimed set, and the span persists to the end
of the fold. -/
theorem foldVisit_claimed (text : List Char) (stn c : Node) (cs ce : Nat)
    (hty : stn.type = NType.strong) (hvs : hasValidPosition stn = true)
    (hc : c ∈ stn.children.toList) (hcty : c.type = NType.emphasis)
    (hcvp : validPos c = some (cs, ce))
    (hne : (cs : Int) + 1 < (ce : Int) - 1) :
    ∀ (ns : List Node) (st : List DecorationRange × List (Int × Int)),
      stn ∈ ns →
      ((cs : Int) + 1, (ce : Int) - 1) ∈ (ns.foldl (visitStep text) st).2 := by
  intro ns
  induction ns with
  | nil => intro st h; simp at h
  | cons n rest ih =>
    intro st hmem
    rw [List.foldl_cons]
    rcases List.mem_cons.mp hmem with rfl | h2
    · refine foldVisit_claimed_mono text rest _ _ ?_
      rw [visitStep, findHandler_strong hty]
      dsimp only
      rw [claimedStep, if_pos hty,
        if_pos ⟨hasEmphasisChild_of_mem _ c hc hcty, hvs⟩]
      exact claimedFold_mem cs ce _ _ c hc hcty hcvp hne
    · exact ih _ h2

/-- C4: when a strong node with a resolvable position has an emphasis child
with a resolvable position (`***x***`), the final output contains no
`italic` range overlapping — partially or fully, in either direction — the
child's delimiter-exclusive content span. -/
theorem c4_strong_emphasis_no_italic_overlap (ast : Node) (text : List Char)
    (stn c : Node) (cs ce : Nat) (hwf : treeWF text ast)
    (hst : stn ∈ preorder ast) (hty : stn.type = NType.strong)
    (hvs : hasValidPosition stn = true)
    (hc : c ∈ stn.children.toList) (hcty : c.type = NType.emphasis)
    (hcvp : validPos c = some (cs, ce)) :
    ∀ d ∈ extractDecorations ast text, d.type = DecType.italic →
      overlapsClaim d ((cs : Int) + 1, (ce : Int) - 1) = false := by
  have hcp := hwf c (mem_children_preorder ast stn hst c hc)
  simp only [nodeWF, hcvp, hcty, Bool.and_eq_true, decide_eq_true_eq] at hcp
  obtain ⟨⟨hb1, hb2⟩, hb3⟩ := hcp
  have hne : (cs : Int) + 1 < (ce : Int) - 1 := by omega
  intro d hd hity
  simp only [extractDecorations] at hd
  rcases List.mem_append.mp hd with hmem | hmem
  · have hkeep := List.of_mem_filter hmem
    rw [keepAfterConflict, if_pos hity] at hkeep
    have hspan := foldVisit_claimed text stn c cs ce hty hvs hc hcty hcvp hne
      (preorder ast) ([], []) hst
    simp only [Bool.not_eq_true', List.any_eq_false] at hkeep
    simpa using hkeep _ hspan
  · have hs := (highlightLoop_shape text text.length 0 d hmem).1
    rcases hs with ⟨hbty, -⟩ | ⟨hbty, -⟩ <;> rw [hity] at hbty <;>
      simp at hbty

theorem c4_witness :
    (∀ n ∈ preorder (Node.mk NType.root 0 (some (some 0, some 7))
        (NodeList.cons (Node.mk NType.strong 0 (some (some 0, some 7))
          (NodeList.cons (Node.mk NType.emphasis 0 (some (some 2, some 5))
            NodeList.nil) NodeList.nil)) NodeList.nil)),
      nodeWF ['*', '*', '*', 'b', '*', '*', '*'] n = true) ∧
    (∀ d ∈ extractDecorations
        (Node.mk NType.root 0 (some (some 0, some 7))
          (NodeList.cons (Node.mk NType.strong 0 (some (some 0, some 7))
            (NodeList.cons (Node.mk NType.emphasis 0 (some (some 2, some 5))
              NodeList.nil) NodeList.nil)) NodeList.nil))
        ['*', '*', '*', 'b', '*', '*', '*'],
      d.type = DecType.italic →
        overlapsClaim d (((2 : Nat) : Int) + 1, ((5 : Nat) : Int) - 1) =
          false) :=
  ⟨by decide, c4_strong_emphasis_no_italic_overlap
    (Node.mk NType.root 0 (some (some 0, some 7))
      (NodeList.cons (Node.mk NType.strong 0 (some (some 0, some 7))
        (NodeList.cons (Node.mk NType.emphasis 0 (some (some 2, some 5))
          NodeList.nil) NodeList.nil)) NodeList.nil))
    ['*', '*', '*', 'b', '*', '*', '*']
    (Node.mk NType.strong 0 (some (some 0, some 7))
      (NodeList.cons (Node.mk NType.emphasis 0 (some (some 2, some 5))
        NodeList.nil) NodeList.nil))
    (Node.mk NType.emphasis 0 (some (some 2, some 5)) NodeList.nil)
    2 5 (by unfold treeWF; decide)
    (by simp [preorder, preorderList]) (by decide) (by decide)
    (by simp [Node.children, NodeList.toList]) (by decide) (by decide)⟩

/-! ## Claim 3: extraction is a pure function of its input -/

/-- C3: two extraction calls on identical text (and hence on the identical
parse tree, the external parser being a function of the text) return
set-equal decoration lists.  The embedded `extractDecorations` is, like the
source method, a pure function of its arguments: the source constructs a
fresh `DecorationCollector` per call and no other state survives a call, so
no residue of a prior call can change the output. -/
theorem c3_repeat_call_set_equal (ast1 ast2 : Node) (text1 text2 : List Char)
    (hast : ast1 = ast2) (htext : text1 = text2) :
    ∀ d, d ∈ extractDecorations ast1 text1 ↔ d ∈ extractDecorations ast2 text2 := by
  subst hast
  subst htext
  exact fun _ => Iff.rfl

theorem c3_witness :
    (mkR 0 2 DecType.hide ∈ extractDecorations
        (Node.mk NType.root 0 none NodeList.nil) ['=', '=', 'a', '=', '='] ↔
      mkR 0 2 DecType.hide ∈ extractDecorations
        (Node.mk NType.root 0 none NodeList.nil) ['=', '=', 'a', '=', '=']) :=
  c3_repeat_call_set_equal (Node.mk NType.root 0 none NodeList.nil)
    (Node.mk NType.root 0 none NodeList.nil) ['=', '=', 'a', '=', '=']
    ['=', '=', 'a', '=', '='] rfl rfl (mkR 0 2 DecType.hide)

/-! ## Claim 9: code-block fence-mismatch fallback -/

/-- C9: for every code node whose raw span does not match the fence pattern
(3+ opening backticks, a body, a closing backtick fence at the end), the
code-block handler emits exactly one decoration of type `code` covering the
entire node span (and, being a total Lean function, never fails). -/
theorem c9_code_fence_fallback (n : Node) (text : List Char) (s e : Nat)
    (hpos : validPos n = some (s, e))
    (hm : fenceMatch (jsSubstring text (s : Int) (e : Int)) = none) :
    codeBlockHandler n text = [mkR (s : Int) (e : Int) DecType.code] := by
  simp [codeBlockHandler, hpos, codeBlockExtract, hm]

theorem c9_witness :
    validPos (Node.mk NType.code 0 (some (some 0, some 3)) NodeList.nil) =
        some (0, 3) ∧
      fenceMatch (jsSubstring ['a', 'b', 'c'] (0 : Int) (3 : Int)) = none ∧
      codeBlockHandler (Node.mk NType.code 0 (some (some 0, some 3))
          NodeList.nil) ['a', 'b', 'c'] =
        [mkR (0 : Int) (3 : Int) DecType.code] :=
  ⟨by decide, by decide,
    c9_code_fence_fallback (Node.mk NType.code 0 (some (some 0, some 3))
      NodeList.nil) ['a', 'b', 'c'] 0 3 (by decide) (by decide)⟩

end MDIE
